import Mathlib

/-! The term/heap subsystem of `src/Term.cpp`

A shallow embedding of the constant table (symbol interning, escaping,
ordinal names) and of the heap traversals (length measurement, printing) of
`src/Term.cpp`, followed by the properties proved about them.

Conventions of the embedding.

* A NUL-terminated C string is the `List Char` of its characters before the
  terminator; `strlen` is `List.length`, and `name[0]` of the empty string is
  the terminator itself.
* `escapeName` is the text it writes, whatever the capacity of the buffer it
  is given. A caller that hands it a local `char escapedName[MAX_CONST_LENGTH]`
  (`findConst`, `getConst`) is `none` when the text written, its NUL
  included, does not fit: the write past the buffer is undefined behaviour.
* The indent table of `PrintState` is the memory at its address, indexed by
  depth, so that a write at or past its extent `MAX_INDENT_DEPTH` stays
  visible. The general properties of `print` are stated for terms nested at
  most `MAX_INDENT_DEPTH` deep, and show that their runs stay inside the
  table.
* `size_t` values are natural numbers; the one place where a `size_t` wraps
  around, the decrement of the indent depth, is modelled as such.
* `assert` failures, and reads of cells or table entries that do not exist,
  are `none`.
* A loop whose number of rounds is not bounded by its arguments takes a bound
  on the number of rounds (`fuel`) and is `none` when the bound is reached.
-/

namespace PROJECT

/-! ## Constant table -/

/-- The terminating NUL of a C string. -/
def NUL : Char := Char.ofNat 0

/-- The single quote character. -/
def QUOTE : Char := Char.ofNat 39

/-- The backslash character. -/
def BACKSLASH : Char := Char.ofNat 92

/-- The largest `size_t`. -/
def SIZE_MAX : Nat := 2 ^ 64 - 1

/-- Modelled from the spec: `ConstRef` is declared in `Term.hpp`; it is a
1-based offset into the constant table, `0` is the null reference
`ConstRef()`. -/
structure ConstRef where
  index : Nat
deriving DecidableEq, Repr

/-- Modelled from the spec: `ConstString` is declared in `Term.hpp`;
`ConstString(chars, length, arity)` is a view of `length` characters and an
arity, equal to another when all three agree. `chars` holds exactly the
`length` characters viewed. -/
structure ConstString where
  chars : List Char
  arity : Nat
deriving DecidableEq, Repr

namespace ConstString

/-- Modelled from the spec: `ConstString::getLength`, the number of characters
viewed. -/
def getLength (str : ConstString) : Nat := str.chars.length

/-- Embeds `operator << (std::ostream &, const ConstString &)`: the characters
emitted, the `length` characters followed by `/arity` when the arity is not
zero. -/
def print (str : ConstString) : List Char :=
  let out := (List.range str.getLength).map (fun i => str.chars.getD i NUL)
  if str.arity > 0 then out ++ ['/'] ++ (Nat.repr str.arity).toList else out

end ConstString

/-- Modelled from the spec: `ConstTable::MAX_CONST_LENGTH`, `thisPool`,
`thisIndexing` and the table storage are declared in `Term.hpp`, which is not
part of the sources. The table is the sequence of its entries, entry `i`
(1-based, the `ConstRef`) holding the pooled `[length][arity][chars...]`
record as a `ConstString`; `thisIndexing` is the map from a symbol to its
reference, kept as an association list with the newest binding first. -/
structure ConstTable where
  entries : List ConstString
  thisIndexing : List (ConstString × ConstRef)
deriving DecidableEq, Repr

namespace ConstTable

/-- Embeds `ConstTable::RESERVED` without its terminator. -/
def RESERVED : List Char := ['[', ']', '(', ')', ',', '.', BACKSLASH, QUOTE]

/-- Modelled from the spec: `ConstTable::isReserved` (declared in `Term.hpp`)
tests membership in the reserved set `RESERVED`. -/
def isReserved (ch : Char) : Bool := RESERVED.contains ch

/-- The first loop of `escapeName`: scan for a reserved character, leaving on
the first one found. -/
def escapeName.scan : List Char → Bool → Bool
  | [], useQuotes => useQuotes
  | ch :: rest, useQuotes => if isReserved ch then true else escapeName.scan rest useQuotes

/-- The second loop of `escapeName`: copy `name` behind what `escapedName`
holds so far, writing a backslash before each backslash and quote. -/
def escapeName.copy : List Char → List Char → List Char
  | [], escapedName => escapedName
  | ch :: rest, escapedName =>
    let escapedName := if ch = BACKSLASH ∨ ch = QUOTE then escapedName ++ [BACKSLASH] else escapedName
    escapeName.copy rest (escapedName ++ [ch])

/-- Embeds `ConstTable::escapeName`: the text written to `escapedName`. -/
def escapeName (name : List Char) : List Char :=
  let useQuotes : Bool := decide ('A' ≤ name.headD NUL ∧ name.headD NUL ≤ 'Z')
  let useQuotes := escapeName.scan name useQuotes
  let escapedName := if useQuotes then [QUOTE] else []
  let escapedName := escapeName.copy name escapedName
  if useQuotes then escapedName ++ [QUOTE] else escapedName

/-- The number of characters `escapeName` writes to `escapedName`, the
terminating NUL included. -/
def escapeName.written (name : List Char) : Nat := (escapeName name).length + 1

/-- Modelled from the spec: `thisIndexing.find(str)` of the map declared in
`Term.hpp` gives the bound reference, the null reference when there is
none. -/
def find (t : ConstTable) (str : ConstString) : ConstRef :=
  match t.thisIndexing.find? (fun p => p.1 = str) with
  | some p => p.2
  | none => ⟨0⟩

/-- Embeds `ConstTable::addConst`: pool the record, append one table entry holding
it, bind the symbol to the new entry's reference. -/
def addConst (t : ConstTable) (name : List Char) (arity : Nat) : ConstRef × ConstTable :=
  let str : ConstString := ⟨name, arity⟩
  let constRef : ConstRef := ⟨t.entries.length + 1⟩
  (constRef, ⟨t.entries ++ [str], (str, constRef) :: t.thisIndexing⟩)

/-- Embeds `ConstTable::findConst`. The escaped text goes to the local
`char escapedName[MAX_CONST_LENGTH]` and, with its NUL, on to
`Char chs[MAX_CONST_LENGTH]`: when `escapeName` writes more than
`MAX_CONST_LENGTH` characters both are overrun, and the call is `none`. -/
def findConst (MAX_CONST_LENGTH : Nat) (t : ConstTable) (name : List Char) (arity : Nat) :
    Option ConstRef :=
  if name.length < MAX_CONST_LENGTH then
    if escapeName.written name ≤ MAX_CONST_LENGTH then
      let escapedName := escapeName name
      some (t.find ⟨escapedName, arity⟩)
    else none
  else none

/-- Embeds `ConstTable::findConstNoEscape`. -/
def findConstNoEscape (MAX_CONST_LENGTH : Nat) (t : ConstTable) (name : List Char) (arity : Nat) :
    Option ConstRef :=
  if name.length < MAX_CONST_LENGTH then some (t.find ⟨name, arity⟩) else none

/-- Embeds `ConstTable::getConst(const char *, size_t)`. Like `findConst`, which
it calls first, it escapes into a local `char escapedName[MAX_CONST_LENGTH]`
and is `none` when the escaped text with its NUL does not fit. -/
def getConst (MAX_CONST_LENGTH : Nat) (t : ConstTable) (name : List Char) (arity : Nat) :
    Option (ConstRef × ConstTable) :=
  if name.length < MAX_CONST_LENGTH then
    match findConst MAX_CONST_LENGTH t name arity with
    | none => none
    | some cref =>
      if cref = ⟨0⟩ then
        if escapeName.written name ≤ MAX_CONST_LENGTH then
          let escapedName := escapeName name
          some (t.addConst escapedName arity)
        else none
      else some (cref, t)
  else none

/-- Embeds `ConstTable::getConstNoEscape`. -/
def getConstNoEscape (MAX_CONST_LENGTH : Nat) (t : ConstTable) (name : List Char) (arity : Nat) :
    Option (ConstRef × ConstTable) :=
  if name.length < MAX_CONST_LENGTH then
    match findConstNoEscape MAX_CONST_LENGTH t name arity with
    | none => none
    | some cref =>
      if cref = ⟨0⟩ then some (t.addConst name arity) else some (cref, t)
  else none

/-- Modelled from the spec: `toAbsolute(ref.getIndex())` followed by
`thisPool.toAbsolute` (both declared in `Term.hpp`) reach the pooled record
of `ref`; there is none for the null reference or past the table. -/
def record (t : ConstTable) (ref : ConstRef) : Option ConstString :=
  if ref.index = 0 then none else t.entries.get? (ref.index - 1)

/-- Embeds `ConstTable::getConstArity`. -/
def getConstArity (t : ConstTable) (ref : ConstRef) : Option Nat :=
  (t.record ref).map (fun data => data.arity)

/-- Embeds `ConstTable::getConstLength`. -/
def getConstLength (t : ConstTable) (ref : ConstRef) : Option Nat :=
  (t.record ref).map (fun data => data.getLength)

/-- Embeds `ConstTable::printConst`: the characters emitted. -/
def printConst (t : ConstTable) (ref : ConstRef) : Option (List Char) :=
  (t.record ref).map (fun data => ConstString.print ⟨data.chars, data.arity⟩)

/-- Embeds `ConstTable::printConstNoArity`: the characters emitted. -/
def printConstNoArity (t : ConstTable) (ref : ConstRef) : Option (List Char) :=
  (t.record ref).map (fun data => ConstString.print ⟨data.chars, 0⟩)

/-- Embeds `ALPHABET1` of `getConstName`. -/
def ALPHABET1 : List Char :=
  ['A', 'B', 'C', 'D', 'E', 'F', 'G', 'H', 'I', 'J',
   'K', 'L', 'M', 'N', 'O', 'P', 'Q', 'R', 'S', 'T',
   'U', 'V', 'W', 'X', 'Y', 'Z']

/-- The `while (ordinal > 0)` loop of `getConstName`: the letters written to
`name[0..i)`, least significant first. The first argument bounds the number
of rounds; `ordinal` rounds always suffice. -/
def getConstName.letters : Nat → Nat → List Char → List Char
  | 0, _, name => name
  | fuel + 1, ordinal, name =>
    if ordinal > 0 then
      let index := ordinal % ALPHABET1.length
      getConstName.letters fuel (ordinal / ALPHABET1.length) (name ++ [ALPHABET1.getD index NUL])
    else name

/-- One round of the reversal loop of `getConstName`: exchange `name[j]` and
`name[i - j - 1]`. -/
def getConstName.swap (i : Nat) (name : List Char) (j : Nat) : List Char :=
  let ch := name.getD j NUL
  let name := name.set j (name.getD (i - j - 1) NUL)
  name.set (i - j - 1) ch

/-- Embeds `ConstTable::getConstName`: the string written to `name`. -/
def getConstName (ordinal : Nat) : List Char :=
  if ordinal = 0 then ['A']
  else
    let name := getConstName.letters ordinal ordinal []
    let i := name.length
    let i2 := i / 2
    let name := (List.range i2).foldl (getConstName.swap i) name
    if i > 1 then name.set 0 (Char.ofNat ((name.getD 0 NUL).toNat - 1)) else name

/-- Embeds `ConstTable::getConst(size_t)`. The ordinal is a `size_t`: there is no
call for a number above `SIZE_MAX`. The name of a `size_t` ordinal has at
most 14 letters and fits, with its NUL, the local `char str[16]`. -/
def getConstOrdinal (MAX_CONST_LENGTH : Nat) (t : ConstTable) (ordinal : Nat) :
    Option (ConstRef × ConstTable) :=
  if ordinal ≤ SIZE_MAX then
    let str := getConstName ordinal
    getConstNoEscape MAX_CONST_LENGTH t str 0
  else none

/-- The indexing is consistent with the table: every symbol it binds is bound
to the reference of an entry that holds this symbol. -/
def Consistent (t : ConstTable) : Prop :=
  ∀ p ∈ t.thisIndexing, t.record p.2 = some p.1

/-- The table `t1` extends `t`: it binds what `t` binds and holds the records
`t` holds. -/
def Extends (t t1 : ConstTable) : Prop :=
  (∀ str, t.find str ≠ ⟨0⟩ → t1.find str = t.find str) ∧
  (∀ ref data, t.record ref = some data → t1.record ref = some data)

/-- The text of `name` with a backslash before every backslash and quote. -/
def backslashed : List Char → List Char
  | [] => []
  | ch :: rest =>
    (if ch = BACKSLASH ∨ ch = QUOTE then [BACKSLASH, ch] else [ch]) ++ backslashed rest

/-- The condition of the quoting rule: the first character is one of `A`-`Z`,
or some character is reserved. -/
def needsQuotes (name : List Char) : Bool :=
  (match name with
    | ch :: _ => decide ('A' ≤ ch ∧ ch ≤ 'Z')
    | [] => false) || name.any (fun ch => decide (ch ∈ RESERVED))

/-- The quoting rule of the specification. -/
def quotingRule (name : List Char) : List Char :=
  if needsQuotes name then [QUOTE] ++ backslashed name ++ [QUOTE] else name

end ConstTable

namespace ConstTable

/-- The letter with alphabet index `k`. -/
def letter (k : Nat) : Char := ALPHABET1.getD k NUL

/-- The strings over `A`-`Z` that are one letter long or do not begin with
`Z` (and are not empty). -/
def IsOrdinalName (s : List Char) : Prop :=
  s ≠ [] ∧ (∀ ch ∈ s, ch ∈ ALPHABET1) ∧ (s.length = 1 ∨ s.head? ≠ some 'Z')

/-- The digits of `n` in base 26, most significant first. -/
def msd (n : Nat) : List Nat := (Nat.digits 26 n).reverse

/-- The ordinal a name stands for: the index of its letter when it has one
letter; otherwise the number whose base-26 digits, most significant first,
are the indices of its letters, the first one counted one higher. -/
def nameOrdinal : List Char → Nat
  | [] => 0
  | [ch] => ALPHABET1.indexOf ch
  | ch :: rest =>
    Nat.ofDigits 26 (((ALPHABET1.indexOf ch + 1) ::
      rest.map (fun c => ALPHABET1.indexOf c)).reverse)

end ConstTable

/-! ## Cells, heap and print state -/

/-- Modelled from the spec: `HeapRef` is declared in `Term.hpp`; it is a
1-based offset into the heap, `0` is the null reference. -/
structure HeapRef where
  index : Nat
deriving DecidableEq, Repr

/-- The extended tags of a cell; `EXT_END` and `EXT_COMMA` are the traversal
markers. -/
inductive ExtTag where
  | EXT_END
  | EXT_COMMA
  | EXT_INT32
  | EXT_INT64
  | EXT_FLOAT
  | EXT_DOUBLE
  | EXT_INT128
  | EXT_ARRAY
deriving DecidableEq, Repr

/-- Modelled from the spec: `Cell` is declared in `Term.hpp`, which is not part
of the sources. A cell is a tag (`REF`, `CON`, `STR`, or `EXT` with an
extended tag) and a value: the target offset of a `REF`, the constant
reference of a `CON`, the header offset of a `STR`. -/
inductive Cell where
  | REF (value : Nat)
  | CON (value : Nat)
  | STR (value : Nat)
  | EXT (extTag : ExtTag) (value : Nat)
deriving DecidableEq, Repr

namespace Cell

/-- Modelled from the spec: `Cell::getValue`, the value of the cell. -/
def getValue : Cell → Nat
  | REF value => value
  | CON value => value
  | STR value => value
  | EXT _ value => value

/-- Modelled from the spec: `Cell::toConstRef`, the value as a constant
reference. -/
def toConstRef (cell : Cell) : ConstRef := ⟨cell.getValue⟩

end Cell

/-- Modelled from the spec: `PrintParam` is declared in `Term.hpp`; it holds
the start column, the end column and the indent width. -/
structure PrintParam where
  startColumn : Nat
  endColumn : Nat
  indentWidth : Nat
deriving DecidableEq, Repr

/-- Embeds `PrintState`. The indent table is the memory at `thisIndentTable`, indexed
by depth; its declared extent is `MAX_INDENT_DEPTH`. -/
structure PrintState where
  thisParam : PrintParam
  thisNeedNewLine : Bool
  thisColumn : Nat
  thisIndent : Nat
  thisIndentTable : Nat → Nat

namespace PrintState

/-- Embeds `PrintState::MAX_INDENT_DEPTH`. -/
def MAX_INDENT_DEPTH : Nat := 100

/-- The constructor `PrintState(param)`. -/
def init (param : PrintParam) : PrintState :=
  { thisParam := param
    thisNeedNewLine := false
    thisColumn := param.startColumn
    thisIndent := 0
    thisIndentTable := fun _ => 0 }

/-- Embeds `PrintState::markColumn`: the unchecked write
`thisIndentTable[thisIndent] = thisColumn`. At a depth of `MAX_INDENT_DEPTH`
or more the write is past `size_t thisIndentTable[MAX_INDENT_DEPTH]`; it is
kept as a write to the memory at that index, and the general properties of
`print` are stated for terms whose runs stay inside the table. -/
def markColumn (s : PrintState) : PrintState :=
  { s with thisIndentTable := Function.update s.thisIndentTable s.thisIndent s.thisColumn }

/-- Embeds `PrintState::willWrap`. -/
def willWrap (s : PrintState) (len : Nat) : Bool :=
  decide (s.thisColumn + len ≥ s.thisParam.endColumn)

/-- Embeds `PrintState::willWrapOnLength`. -/
def willWrapOnLength (s : PrintState) : Nat :=
  if s.thisColumn < s.thisParam.endColumn then s.thisParam.endColumn - s.thisColumn else 0

/-- Embeds `PrintState::incrementIndent`. -/
def incrementIndent (s : PrintState) : PrintState :=
  { s with thisIndent := s.thisIndent + 1 }

/-- Embeds `PrintState::decrementIndent`; decrementing the `size_t` zero wraps
around. -/
def decrementIndent (s : PrintState) : PrintState :=
  { s with thisIndent := if s.thisIndent = 0 then SIZE_MAX else s.thisIndent - 1 }

/-- Embeds `PrintState::addToColumn`. -/
def addToColumn (s : PrintState) (len : Nat) : PrintState :=
  let s := { s with thisColumn := s.thisColumn + len }
  if s.thisColumn > s.thisParam.endColumn then { s with thisNeedNewLine := true } else s

/-- Embeds `PrintState::resetToColumn`. -/
def resetToColumn (s : PrintState) (col : Nat) : PrintState :=
  { s with thisNeedNewLine := false, thisColumn := col }

/-- One round of the `for` loop of `PrintState::printIndent`: pad from `col`
to the column of depth `i`. -/
def printIndent.level (s : PrintState) (acc : Nat × List Char) (i : Nat) : Nat × List Char :=
  let col := acc.1
  let iw := s.thisParam.indentWidth
  let p := if s.thisIndentTable i ≠ 0 then s.thisIndentTable i else col + iw
  (p, acc.2 ++ List.replicate (p - col) ' ')

/-- Embeds `PrintState::printIndent`. -/
def printIndent (s : PrintState) (out : List Char) : PrintState × List Char :=
  let col := s.thisColumn
  let start := s.thisParam.startColumn
  let out := out ++ List.replicate (start - col) ' '
  let col := if col < start then start else col
  let r := (List.range s.thisIndent).foldl (printIndent.level s) (col, out)
  ({ s with thisColumn := r.1 }, r.2)

/-- Embeds `PrintState::newLine`. -/
def newLine (s : PrintState) (out : List Char) : PrintState × List Char :=
  let out := out ++ ['\n']
  let s := s.resetToColumn 0
  s.printIndent out

end PrintState

/-- Modelled from the spec: `Heap` is declared in `Term.hpp` and its workspace
in `Stack.hpp`, neither part of the sources. The heap is its cell sequence
(cell `i`, 1-based, at `HeapRef(i)`), the constant table, the workspace
`thisStack` (a LIFO of cells, the top first) and the display-name cache
`thisNameMap` (an association list from an unbound cell to its display
constant, the newest first). -/
structure Heap where
  cells : List Cell
  thisConstTable : ConstTable
  thisStack : List Cell
  thisNameMap : List (Cell × ConstRef)
deriving DecidableEq, Repr

/-- The cell at `ref` in a cell sequence; none at the null reference or past
the end. -/
def getCellAt (cells : List Cell) (ref : HeapRef) : Option Cell :=
  if ref.index = 0 then none else cells.get? (ref.index - 1)

/-- The loop of `deref`: while the cell is a `REF` whose target holds another
cell, go to that cell. The first argument bounds the number of rounds. -/
def derefLoop (cells : List Cell) : Nat → Cell → Option Cell
  | 0, _ => none
  | fuel + 1, cell =>
    match cell with
    | .REF value =>
      match getCellAt cells ⟨value⟩ with
      | none => none
      | some next => if next = cell then some cell else derefLoop cells fuel next
    | _ => some cell

/-- Modelled from the spec: `Heap::deref` is declared in `Term.hpp`. While
`cell` is a `REF` whose target differs from the cell itself, replace it by
the cell at the target. A chain without a cycle has at most one cell per heap
offset, so `cells.length + 1` rounds suffice; on a cycle there is no
result. -/
def derefAt (cells : List Cell) (cell : Cell) : Option Cell :=
  derefLoop cells (cells.length + 1) cell

namespace Heap

/-- Modelled from the spec: `Heap::getCell`, the cell at a heap offset. -/
def getCell (H : Heap) (ref : HeapRef) : Option Cell := getCellAt H.cells ref

/-- Modelled from the spec: `Heap::deref`, see `derefAt`. -/
def deref (H : Heap) (cell : Cell) : Option Cell := derefAt H.cells cell

/-- Modelled from the spec: `Heap::toHeapRef(Cell)`, the value as a heap
offset. -/
def toHeapRef (cell : Cell) : HeapRef := ⟨cell.getValue⟩

/-- Modelled from the spec: `thisStack.push` of the LIFO workspace. -/
def push (H : Heap) (cell : Cell) : Heap := { H with thisStack := cell :: H.thisStack }

/-- Modelled from the spec: `thisStack.pop` gives the top cell and the heap
without it. -/
def pop (H : Heap) : Option (Cell × Heap) :=
  match H.thisStack with
  | [] => none
  | cell :: rest => some (cell, { H with thisStack := rest })

/-- Modelled from the spec: `thisStack.getSize`, the current size of the
workspace. -/
def getSize (H : Heap) : Nat := H.thisStack.length

/-- Modelled from the spec: `thisStack.trim(n)` truncates the workspace to its
`n` oldest cells. -/
def trim (H : Heap) (n : Nat) : Heap :=
  { H with thisStack := H.thisStack.drop (H.thisStack.length - n) }

/-- Modelled from the spec: `thisNameMap.numEntries()`, the number of cached
display names, a `size_t`. -/
def numEntries (H : Heap) : Nat := H.thisNameMap.length % (SIZE_MAX + 1)

/-- Modelled from the spec: `thisNameMap.get` gives the display constant
cached for the cell, if any. -/
def nameMapGet (H : Heap) (cell : Cell) : Option ConstRef :=
  (H.thisNameMap.find? (fun p => p.1 = cell)).map Prod.snd

/-- The `for` loop of `pushArgs` over the rounds `i` listed. -/
def pushArgs.loop (ref : HeapRef) (arity : Nat) : List Nat → Heap → Option Heap
  | [], H => some H
  | i :: rest, H =>
    let H := if i > 0 then H.push (.EXT .EXT_COMMA 0) else H
    match H.getCell ⟨ref.index + arity - i⟩ with
    | none => none
    | some arg => pushArgs.loop ref arity rest (H.push arg)

/-- Embeds `Heap::pushArgs`. -/
def pushArgs (H : Heap) (ref : HeapRef) : Option (ConstRef × Heap) :=
  match H.getCell ref with
  | none => none
  | some cell =>
    let cref := cell.toConstRef
    match H.thisConstTable.getConstArity cref with
    | none => none
    | some arity =>
      if arity > 0 then
        let H := H.push (.EXT .EXT_END 0)
        match pushArgs.loop ref arity (List.range arity) H with
        | none => none
        | some H => some (cref, H)
      else some (cref, H)

/-- Embeds `Heap::getStringLengthForStruct`. -/
def getStringLengthForStruct (H : Heap) (cell : Cell) : Option (Nat × Heap) :=
  let href := toHeapRef cell
  match H.pushArgs href with
  | none => none
  | some (cref, H) =>
    match H.thisConstTable.getConstLength cref, H.thisConstTable.getConstArity cref with
    | some len, some arity => some (if arity > 0 then len + 1 else len, H)
    | _, _ => none

/-- Embeds `Heap::getRefName`. -/
def getRefName (MAX_CONST_LENGTH : Nat) (H : Heap) (cell : Cell) : Option (ConstRef × Heap) :=
  match H.nameMapGet cell with
  | none =>
    match H.thisConstTable.getConstOrdinal MAX_CONST_LENGTH H.numEntries with
    | none => none
    | some (cref, table) =>
      some (cref, { H with thisConstTable := table, thisNameMap := (cell, cref) :: H.thisNameMap })
  | some cref => some (cref, H)

/-- Embeds `Heap::getStringLengthForRef`. -/
def getStringLengthForRef (MAX_CONST_LENGTH : Nat) (H : Heap) (cell : Cell) :
    Option (Nat × Heap) :=
  match H.nameMapGet cell with
  | none =>
    match H.thisConstTable.getConstOrdinal MAX_CONST_LENGTH H.numEntries with
    | none => none
    | some (cref, table) =>
      let H := { H with thisConstTable := table, thisNameMap := (cell, cref) :: H.thisNameMap }
      (H.thisConstTable.getConstLength cref).map (fun len => (len, H))
  | some cref => (H.thisConstTable.getConstLength cref).map (fun len => (len, H))

/-- The `switch` of `getStringLength`: the length the dereferenced cell adds,
and the heap after it. -/
def getStringLength.token (MAX_CONST_LENGTH : Nat) (H : Heap) (cell : Cell) :
    Option (Nat × Heap) :=
  match cell with
  | .CON _ => (H.thisConstTable.getConstLength cell.toConstRef).map (fun len => (len, H))
  | .STR _ => H.getStringLengthForStruct cell
  | .REF _ => H.getStringLengthForRef MAX_CONST_LENGTH cell
  | .EXT .EXT_END _ => some (1, H)
  | .EXT .EXT_COMMA _ => some (2, H)
  | .EXT _ _ => some (0, H)

/-- The `while` loop of `getStringLength`. The first `Nat` bounds the number
of rounds. -/
def getStringLength.loop (MAX_CONST_LENGTH current maximum : Nat) :
    Nat → Heap → Nat → Option (Nat × Heap)
  | 0, _, _ => none
  | fuel + 1, H, len =>
    if current ≠ H.getSize then
      match H.pop with
      | none => none
      | some (top, H) =>
        match H.deref top with
        | none => none
        | some cell =>
          if len ≥ maximum then some (maximum, H.trim current)
          else
            match getStringLength.token MAX_CONST_LENGTH H cell with
            | none => none
            | some (n, H) => getStringLength.loop MAX_CONST_LENGTH current maximum fuel H (len + n)
    else some (len, H)

/-- Embeds `Heap::getStringLength`: the length returned and the heap after the call.
`fuel` bounds the number of rounds of the loop. -/
def getStringLength (MAX_CONST_LENGTH fuel : Nat) (H : Heap) (cell : Cell) (maximum : Nat) :
    Option (Nat × Heap) :=
  let current := H.getSize
  let H := H.push cell
  getStringLength.loop MAX_CONST_LENGTH current maximum fuel H 0

/-- Embeds `Heap::printIndent(out, state)`. -/
def printIndent (out : List Char) (state : PrintState) : PrintState × List Char :=
  if state.thisNeedNewLine then
    let out := out ++ ['\n']
    let state := state.resetToColumn 0
    state.printIndent out
  else (state, out)

/-- The result of a round of `print`: the heap, the print state and the
output. -/
abbrev PrintRound := Heap × PrintState × List Char

/-- The wrap test of the `STR` case of `print`: whether to start a new line
before the structure, and the heap after the length measurement made when
the indent is not zero. -/
def print.wrapTest (MAX_CONST_LENGTH fuel : Nat) (H : Heap) (state : PrintState) (cell : Cell) :
    Option (Bool × Heap) :=
  if state.thisIndent > 0 then
    (H.getStringLength MAX_CONST_LENGTH fuel cell state.willWrapOnLength).map
      (fun r => (state.willWrap r.1, r.2))
  else some (false, H)

/-- The `switch` of `print` on the dereferenced cell. `fuel` bounds the rounds
of each length measurement. -/
def print.token (MAX_CONST_LENGTH fuel : Nat) (H : Heap) (state : PrintState) (out : List Char)
    (cell : Cell) : Option PrintRound :=
  match cell with
  | .CON _ =>
    let cref := cell.toConstRef
    match H.thisConstTable.getConstLength cref, H.thisConstTable.printConstNoArity cref with
    | some len, some name =>
      let r := printIndent out (state.addToColumn len)
      some (H, r.1, r.2 ++ name)
    | _, _ => none
  | .STR _ =>
    match print.wrapTest MAX_CONST_LENGTH fuel H state cell with
    | none => none
    | some (wrap, H) =>
      let r := if wrap then state.newLine out else (state, out)
      let href := toHeapRef cell
      match H.pushArgs href with
      | none => none
      | some (cref, H) =>
        match H.thisConstTable.getConstArity cref, H.thisConstTable.getConstLength cref,
            H.thisConstTable.printConstNoArity cref with
        | some arity, some len, some name =>
          let r := printIndent r.2 (r.1.addToColumn (len + (if arity > 0 then 1 else 0)))
          if arity > 0 then
            some (H, r.1.markColumn.incrementIndent, r.2 ++ name ++ ['('])
          else some (H, r.1, r.2 ++ name)
        | _, _, _ => none
  | .REF _ =>
    match H.getRefName MAX_CONST_LENGTH cell with
    | none => none
    | some (cref, H) =>
      match H.thisConstTable.getConstLength cref, H.thisConstTable.printConstNoArity cref with
      | some len, some name =>
        let r := printIndent out (state.addToColumn len)
        some (H, r.1, r.2 ++ name)
      | _, _ => none
  | .EXT .EXT_END _ =>
    let r := printIndent out (state.addToColumn 1)
    some (H, r.1.decrementIndent, r.2 ++ [')'])
  | .EXT .EXT_COMMA _ =>
    let r := printIndent out (state.addToColumn 2)
    some (H, r.1, r.2 ++ [',', ' '])
  | .EXT _ _ =>
    let r := printIndent out (state.addToColumn 3)
    some (H, r.1, r.2 ++ ['?', '?', '?'])

/-- The `while` loop of `print`. The first `Nat` after `current` bounds the
number of rounds. -/
def print.loop (MAX_CONST_LENGTH bound current : Nat) :
    Nat → Heap → PrintState → List Char → Option PrintRound
  | 0, _, _, _ => none
  | fuel + 1, H, state, out =>
    if current ≠ H.getSize then
      match H.pop with
      | none => none
      | some (top, H) =>
        match H.deref top with
        | none => none
        | some cell =>
          match print.token MAX_CONST_LENGTH bound H state out cell with
          | none => none
          | some (H, state, out) => print.loop MAX_CONST_LENGTH bound current fuel H state out
    else some (H, state, out)

/-- Embeds `Heap::print(out, href, param)`: the heap after the call and the output.
`fuel` bounds the number of rounds of each loop. -/
def print (MAX_CONST_LENGTH fuel : Nat) (H : Heap) (out : List Char) (href : HeapRef)
    (param : PrintParam) : Option (Heap × List Char) :=
  let state := PrintState.init param
  let current := H.getSize
  match H.getCell href with
  | none => none
  | some cell =>
    let H := H.push cell
    (print.loop MAX_CONST_LENGTH fuel current fuel H state out).map (fun r => (r.1, r.2.2))

end Heap

/-! ## Terms on the heap -/

/-- A finite term: a constant, an unbound variable (given by its
self-referencing `REF` cell), or a structure of a functor and its
arguments. -/
inductive Term where
  | con (cref : ConstRef)
  | var (cell : Cell)
  | str (functor : ConstRef) (args : List Term)

namespace ConstTable

/-- The name of a constant, without arity: what `printConstNoArity` emits. -/
def name (t : ConstTable) (ref : ConstRef) : List Char := (t.printConstNoArity ref).getD []

end ConstTable

namespace Term

mutual
/-- The canonical text of a term without variables: a constant is its name, a
structure is its name, `(`, its arguments separated by `, `, and `)`. -/
def render (T : ConstTable) : Term → List Char
  | .con cref => T.name cref
  | .var _ => []
  | .str functor args => T.name functor ++ ['('] ++ renderArgs T args ++ [')']
/-- The texts of the arguments, separated by `, `. -/
def renderArgs (T : ConstTable) : List Term → List Char
  | [] => []
  | [a] => render T a
  | a :: b :: rest => render T a ++ [',', ' '] ++ renderArgs T (b :: rest)
end

mutual
/-- A bound on the number of workspace cells a traversal of the term pops. -/
def size : Term → Nat
  | .con _ => 1
  | .var _ => 1
  | .str _ args => 1 + sizeArgs args
/-- The bound for the arguments, their separators and the closing marker. -/
def sizeArgs : List Term → Nat
  | [] => 1
  | a :: rest => size a + 1 + sizeArgs rest
end

mutual
/-- The number of variable occurrences of a term. -/
def vars : Term → Nat
  | .con _ => 0
  | .var _ => 1
  | .str _ args => varsArgs args
/-- The number of variable occurrences of the arguments. -/
def varsArgs : List Term → Nat
  | [] => 0
  | a :: rest => vars a + varsArgs rest
end

mutual
/-- The cell `cell` of the heap `cells` holds the well-formed term: it
dereferences to a `CON` cell of an interned constant, to an unbound `REF`
cell, or to a `STR` cell whose header is a `CON` cell of a functor of arity
`n > 0`, immediately followed in heap order by `n` cells that hold the
arguments, the first argument at `header + 1`. -/
def represents (cells : List Cell) (T : ConstTable) : Term → Cell → Bool
  | .con cref, cell =>
    derefAt cells cell == some (.CON cref.index) && (T.record cref).isSome
  | .var v, cell =>
    derefAt cells cell == some v && (match v with | .REF _ => true | _ => false)
  | .str functor args, cell =>
    match derefAt cells cell with
    | some (.STR header) =>
      getCellAt cells ⟨header⟩ == some (.CON functor.index) &&
      T.getConstArity functor == some args.length &&
      decide (0 < args.length) &&
      representsArgs cells T args ((cells.drop header).take args.length)
    | _ => false
/-- The cells hold the arguments, one each, in order. -/
def representsArgs (cells : List Cell) (T : ConstTable) : List Term → List Cell → Bool
  | [], [] => true
  | a :: rest, cell :: more => represents cells T a cell && representsArgs cells T rest more
  | _, _ => false
end

end Term

/-- What a traversal finds on the workspace: a term, the separator marker or
the closing marker. -/
inductive Item where
  | term (t : Term)
  | comma
  | close

namespace Item

/-- The text an item stands for. -/
def render (T : ConstTable) : Item → List Char
  | term t => t.render T
  | comma => [',', ' ']
  | close => [')']

/-- A bound on the number of cells popped for an item. -/
def need : Item → Nat
  | term t => t.size
  | comma => 1
  | close => 1

/-- The number of variable occurrences of an item. -/
def vars : Item → Nat
  | term t => t.vars
  | comma => 0
  | close => 0

/-- The text printed when the item itself is popped: the name of a constant,
the name of a functor and `(`, a separator, a closing parenthesis. -/
def ownText (T : ConstTable) : Item → List Char
  | term (.con cref) => T.name cref
  | term (.var _) => []
  | term (.str functor _) => T.name functor ++ ['(']
  | comma => [',', ' ']
  | close => [')']

/-- The cell holds the item. -/
def represents (cells : List Cell) (T : ConstTable) : Item → Cell → Bool
  | term t, cell => t.represents cells T cell
  | comma, cell => cell == .EXT .EXT_COMMA 0
  | close, cell => cell == .EXT .EXT_END 0

end Item

/-- The items `pushArgs` schedules for the arguments of a structure. -/
def argItems : List Term → List Item
  | [] => [.close]
  | [a] => [.term a, .close]
  | a :: b :: rest => .term a :: .comma :: argItems (b :: rest)

/-- The cells `pushArgs` leaves on the workspace for the argument cells given,
the top first. -/
def argStack : List Cell → List Cell
  | [] => [.EXT .EXT_END 0]
  | [a] => [a, .EXT .EXT_END 0]
  | a :: b :: rest => a :: .EXT .EXT_COMMA 0 :: argStack (b :: rest)

/-- The items scheduled when an item is popped. -/
def Item.expand : Item → List Item
  | .term (.str _ args) => argItems args
  | _ => []

/-- The last item is a closing marker, or a structure, whose last item it
will be. -/
def endsClosed (items : List Item) : Bool :=
  match items.getLast? with
  | some .close => true
  | some (.term (.str _ _)) => true
  | _ => false

/-- The text a list of items stands for. -/
def renderItems (T : ConstTable) (items : List Item) : List Char :=
  (items.map (Item.render T)).flatten

/-- A bound on the number of cells popped for a list of items. -/
def itemsNeed (items : List Item) : Nat := (items.map Item.need).sum

/-- The number of variable occurrences of a list of items. -/
def itemsVars (items : List Item) : Nat := (items.map Item.vars).sum

/-- The cells `top` hold the items, one each, in order. -/
def RepItems (cells : List Cell) (T : ConstTable) (top : List Cell) (items : List Item) : Prop :=
  List.Forall₂ (fun cell item => item.represents cells T cell = true) top items

namespace Heap

/-- The state a traversal needs to name variables: `MAX_CONST_LENGTH` leaves
room for every ordinal name of a `size_t`, the constant table is consistent,
and the display-name cache holds references of interned constants. -/
def Good (MAX_CONST_LENGTH : Nat) (H : Heap) : Prop :=
  14 < MAX_CONST_LENGTH ∧ ConstTable.Consistent H.thisConstTable ∧
    ∀ p ∈ H.thisNameMap, (H.thisConstTable.record p.2).isSome = true

/-- The heap `H1` is a later state of `H`: the same cells, a constant table
that extends the one of `H`, and still a good state when `H` is one. -/
def Evolves (MAX_CONST_LENGTH : Nat) (H H1 : Heap) : Prop :=
  H1.cells = H.cells ∧ ConstTable.Extends H.thisConstTable H1.thisConstTable ∧
    (Good MAX_CONST_LENGTH H → Good MAX_CONST_LENGTH H1)

/-- The heap with its workspace replaced. -/
def withStack (H : Heap) (stack : List Cell) : Heap := { H with thisStack := stack }

end Heap

namespace PrintState

end PrintState

/-! ## A heap holding `f(a, b, c)` -/

namespace Example

/-- The constant table after interning `f/3`, `a`, `b`, `c` and `foo`. -/
def table : ConstTable :=
  { entries := [⟨['f'], 3⟩, ⟨['a'], 0⟩, ⟨['b'], 0⟩, ⟨['c'], 0⟩, ⟨['f', 'o', 'o'], 0⟩]
    thisIndexing := [(⟨['f', 'o', 'o'], 0⟩, ⟨5⟩), (⟨['c'], 0⟩, ⟨4⟩), (⟨['b'], 0⟩, ⟨3⟩),
      (⟨['a'], 0⟩, ⟨2⟩), (⟨['f'], 3⟩, ⟨1⟩)] }

/-- The heap with the functor cell of `f/3` at offset 1, its arguments `a`,
`b`, `c` at offsets 2 to 4, the structure cell at offset 5, the constant
`foo` at offset 6, and at offsets 7 to 11 a second structure `f(X, Y, X)` of
two unbound variables; two cells are on the workspace. -/
def heap : Heap :=
  { cells := [.CON 1, .CON 2, .CON 3, .CON 4, .STR 1, .CON 5,
      .CON 1, .REF 8, .REF 9, .REF 8, .STR 7]
    thisConstTable := table
    thisStack := [.CON 2, .EXT .EXT_COMMA 0]
    thisNameMap := [] }

/-- The term `f(a, b, c)`. -/
def term : Term := .str ⟨1⟩ [.con ⟨2⟩, .con ⟨3⟩, .con ⟨4⟩]

/-- The term `f(X, Y, X)` of the unbound cells at offsets 8 and 9. -/
def termVars : Term := .str ⟨1⟩ [.var (.REF 8), .var (.REF 9), .var (.REF 8)]

/-- A configuration of ample width. -/
def param : PrintParam := { startColumn := 0, endColumn := 80, indentWidth := 2 }

end Example

/-! ## The minimal parser -/

/-- Embeds `LocationTracker`. -/
structure LocationTracker where
  thisLine : Nat
  thisColumn : Nat
deriving DecidableEq, Repr

namespace LocationTracker

/-- Embeds `LocationTracker::newLine`. -/
def newLine (loc : LocationTracker) : LocationTracker :=
  { thisLine := loc.thisLine + 1, thisColumn := 0 }

/-- Embeds `LocationTracker::nextColumn`. -/
def nextColumn (loc : LocationTracker) : LocationTracker :=
  { loc with thisColumn := loc.thisColumn + 1 }

/-- Embeds `LocationTracker::advance`. -/
def advance (loc : LocationTracker) (ch : Char) : LocationTracker :=
  if ch = '\n' then loc.newLine else loc.nextColumn

end LocationTracker

/-- The standard `isspace` of the C locale: space, tab, line feed, vertical
tab, form feed, carriage return. -/
def isspace (ch : Char) : Bool :=
  ch = ' ' || ch = '\t' || ch = '\n' || ch = Char.ofNat 11 || ch = Char.ofNat 12 || ch = '\r'

/-- The input stream `std::istream`: the characters not read yet and the
`skipws` format flag, which the caller of the parser sets (it is set in a
fresh stream). -/
structure IStream where
  chars : List Char
  skipws : Bool
deriving DecidableEq, Repr

namespace IStream

/-- The extraction `in >> ch` of the standard library: with `skipws` the
leading white space is discarded first; the next character is stored in `ch`;
at the end of the input the extraction fails and `ch` stays as it is. -/
def extract (s : IStream) (ch : Char) : Char × IStream :=
  let chars := if s.skipws then s.chars.dropWhile isspace else s.chars
  match chars with
  | [] => (ch, { s with chars := [] })
  | c :: rest => (c, { s with chars := rest })

end IStream

namespace Heap

/-- Modelled from the spec: `Heap::newCon` is declared in `Term.hpp`; it
allocates a `Constant` cell for the reference at the end of the heap and
returns its offset. -/
def newCon (H : Heap) (cref : ConstRef) : HeapRef × Heap :=
  (⟨H.cells.length + 1⟩, { H with cells := H.cells ++ [.CON cref.index] })

/-- Embeds `Heap::getConst(const char *, size_t)`. -/
def getConst (MAX_CONST_LENGTH : Nat) (H : Heap) (name : List Char) (arity : Nat) :
    Option (ConstRef × Heap) :=
  (H.thisConstTable.getConst MAX_CONST_LENGTH name arity).map
    (fun r => (r.1, { H with thisConstTable := r.2 }))

/-- The `do ... while (isspace(ch))` loop of `parseSkipWhite`. The first
argument bounds the number of rounds. -/
def parseSkipWhite.loop : Nat → IStream → LocationTracker → Char →
    Option (Char × IStream × LocationTracker)
  | 0, _, _, _ => none
  | fuel + 1, stream, loc, ch =>
    let r := stream.extract ch
    let loc := loc.advance r.1
    if isspace r.1 then parseSkipWhite.loop fuel r.2 loc r.1 else some (r.1, r.2, loc)

/-- Embeds `Heap::parseSkipWhite`; the local `ch` starts as NUL. -/
def parseSkipWhite (fuel : Nat) (stream : IStream) (loc : LocationTracker) :
    Option (Char × IStream × LocationTracker) :=
  parseSkipWhite.loop fuel stream loc NUL

/-- The `do ... while (cont)` loop of `parseConst`: the characters written to
`constName`, the last character read and the stream. The first `Nat` bounds
the number of rounds. -/
def parseConst.loop (useQuotes : Bool) : Nat → IStream → Char → List Char →
    Option (List Char × Char × IStream)
  | 0, _, _, _ => none
  | fuel + 1, stream, ch, constName =>
    let r := stream.extract ch
    let constName := constName ++ [r.1]
    if r.1 = BACKSLASH then
      if useQuotes then
        let r := r.2.extract r.1
        let constName := constName ++ [r.1]
        parseConst.loop useQuotes fuel r.2 r.1 constName
      else some (constName, r.1, r.2)
    else
      if useQuotes then
        let cont : Bool := !(r.1 == QUOTE)
        let constName := constName ++ [r.1]
        if cont then parseConst.loop useQuotes fuel r.2 r.1 constName
        else some (constName, r.1, r.2)
      else
        if ConstTable.isReserved r.1 then some (constName, r.1, r.2)
        else parseConst.loop useQuotes fuel r.2 r.1 constName

/-- Embeds `Heap::parseError`. -/
def parseError (MAX_CONST_LENGTH : Nat) (H : Heap) : Option (HeapRef × Heap) :=
  match H.thisConstTable.getConstNoEscape MAX_CONST_LENGTH "$parseError".toList 0 with
  | none => none
  | some (cref, table) => some (newCon { H with thisConstTable := table } cref)

/-- Embeds `Heap::parseConst`: the offset of the new cell, the heap and the
stream after the call. -/
def parseConst (MAX_CONST_LENGTH fuel : Nat) (H : Heap) (stream : IStream) (ch : Char) :
    Option (HeapRef × Heap × IStream) :=
  let useQuotes : Bool := ch == QUOTE
  if !useQuotes && ConstTable.isReserved ch then
    (parseError MAX_CONST_LENGTH H).map (fun r => (r.1, r.2, stream))
  else
    let constName := [ch]
    match parseConst.loop useQuotes fuel stream ch constName with
    | none => none
    | some (constName, _, stream) =>
      match H.getConst MAX_CONST_LENGTH constName 0 with
      | none => none
      | some (cref, H) =>
        let r := H.newCon cref
        some (r.1, r.2, stream)

/-- Embeds `Heap::parse`: the offset of the new cell, the heap, the stream and
the location after the call. -/
def parse (MAX_CONST_LENGTH fuel : Nat) (H : Heap) (stream : IStream) (loc : LocationTracker) :
    Option (HeapRef × Heap × IStream × LocationTracker) :=
  match parseSkipWhite fuel stream loc with
  | none => none
  | some (ch, stream, loc) =>
    (parseConst MAX_CONST_LENGTH fuel H stream ch).map (fun r => (r.1, r.2.1, r.2.2, loc))

/-- The text `print` emits for the cell at `href` when it is a constant. -/
def printedConstant (H : Heap) (href : HeapRef) : Option (List Char) :=
  match H.getCell href with
  | some (.CON value) => H.thisConstTable.printConstNoArity ⟨value⟩
  | _ => none

end Heap

/-! ## Output columns and three more heaps -/

/-- The output column after the text `out`: the number of characters emitted
since the last newline, counted from the start column when there is no
newline yet. -/
def actualColumn (startColumn : Nat) (out : List Char) : Nat :=
  if out.contains '\n' then (out.reverse.takeWhile (fun ch => ch ≠ '\n')).length
  else startColumn + out.length

namespace Wide

/-- The constant table after interning `append/2` and `element_0123456789`. -/
def table : ConstTable :=
  { entries := [⟨"append".toList, 2⟩, ⟨"element_0123456789".toList, 0⟩]
    thisIndexing := [(⟨"element_0123456789".toList, 0⟩, ⟨2⟩), (⟨"append".toList, 2⟩, ⟨1⟩)] }

/-- The heap holding the right-nested structure
`append(e, append(e, append(e, e)))` with `e = element_0123456789`: the
innermost structure at offsets 1 to 3, the middle one at 4 to 6, the outer one
at 7 to 9, and the structure cell of the whole term at offset 10. -/
def heap : Heap :=
  { cells := [.CON 1, .CON 2, .CON 2, .CON 1, .CON 2, .STR 1, .CON 1, .CON 2, .STR 4, .STR 7]
    thisConstTable := table
    thisStack := []
    thisNameMap := [] }

/-- The term held at offset 10. -/
def term : Term :=
  .str ⟨1⟩ [.con ⟨2⟩, .str ⟨1⟩ [.con ⟨2⟩, .str ⟨1⟩ [.con ⟨2⟩, .con ⟨2⟩]]]

/-- The configuration with end column 40. -/
def param : PrintParam := { startColumn := 0, endColumn := 40, indentWidth := 2 }

/-- The output up to the last constant. -/
def before : List Char :=
  "append(element_0123456789, \n".toList ++
  "       append(element_0123456789, \n".toList ++
  "              append(element_0123456789\n".toList ++
  "                     , element_0123456789".toList

/-- The output after the first closing parenthesis. -/
def after : List Char := "\n              ))".toList

end Wide

namespace Flat

/-- The constant table after interning `g/1`, `x`, `f/5`, `a`, `b`, `c` and
`d`. -/
def table : ConstTable :=
  { entries := [⟨['g'], 1⟩, ⟨['x'], 0⟩, ⟨['f'], 5⟩, ⟨['a'], 0⟩, ⟨['b'], 0⟩, ⟨['c'], 0⟩,
      ⟨['d'], 0⟩]
    thisIndexing := [(⟨['d'], 0⟩, ⟨7⟩), (⟨['c'], 0⟩, ⟨6⟩), (⟨['b'], 0⟩, ⟨5⟩), (⟨['a'], 0⟩, ⟨4⟩),
      (⟨['f'], 5⟩, ⟨3⟩), (⟨['x'], 0⟩, ⟨2⟩), (⟨['g'], 1⟩, ⟨1⟩)] }

/-- The heap holding `f(a, b, c, d, g(x))`: `g(x)` at offsets 1 and 2, the
functor `f/5` and its five arguments at offsets 3 to 8, the structure cell of
the whole term at offset 9. -/
def heap : Heap :=
  { cells := [.CON 1, .CON 2, .CON 3, .CON 4, .CON 5, .CON 6, .CON 7, .STR 1, .STR 3]
    thisConstTable := table
    thisStack := []
    thisNameMap := [] }

/-- The term held at offset 9. -/
def term : Term :=
  .str ⟨3⟩ [.con ⟨4⟩, .con ⟨5⟩, .con ⟨6⟩, .con ⟨7⟩, .str ⟨1⟩ [.con ⟨2⟩]]

/-- The configuration with end column 10. -/
def param : PrintParam := { startColumn := 0, endColumn := 10, indentWidth := 2 }

/-- The output up to the opening parenthesis of `g(x)`. -/
def opened : List Char := "f(a, b, c\n  , d, g(".toList

end Flat

namespace Deep

/-- The constant table after interning `g/1` and `a`. -/
def table : ConstTable :=
  { entries := [⟨['g'], 1⟩, ⟨['a'], 0⟩]
    thisIndexing := [(⟨['a'], 0⟩, ⟨2⟩), (⟨['g'], 1⟩, ⟨1⟩)] }

/-- The heap holding `g(g(...g(a)...))` nested `depth` deep: the functor of
level `k` (from 0, the outermost) at offset `2k + 1`, its argument at
`2k + 2`, the structure cell of the whole term last. -/
def heap (depth : Nat) : Heap :=
  { cells := ((List.range (depth - 1)).map (fun k => [Cell.CON 1, Cell.STR (2 * k + 3)])).flatten
      ++ [.CON 1, .CON 2, .STR 1]
    thisConstTable := table
    thisStack := []
    thisNameMap := [] }

/-- The term `g(g(...g(a)...))` nested `depth` deep. -/
def term : Nat → Term
  | 0 => .con ⟨2⟩
  | depth + 1 => .str ⟨1⟩ [term depth]

/-- The configuration with end column 40. -/
def param : PrintParam := { startColumn := 0, endColumn := 40, indentWidth := 2 }

end Deep

/-! ## Display names of variables -/

namespace Term

mutual
/-- The unbound cells of a term, one for each occurrence, in the order of a
left-to-right traversal. -/
def varList : Term → List Cell
  | .con _ => []
  | .var v => [v]
  | .str _ args => varListArgs args
/-- The unbound cells of the arguments, in order. -/
def varListArgs : List Term → List Cell
  | [] => []
  | a :: rest => varList a ++ varListArgs rest
end

mutual
/-- The canonical text of a term whose variables are written by `names`: a
constant is its name, a variable is its display name, a structure is its
name, `(`, its arguments separated by `, `, and `)`. -/
def renderNamed (T : ConstTable) (names : Cell → List Char) : Term → List Char
  | .con cref => T.name cref
  | .var v => names v
  | .str functor args => T.name functor ++ ['('] ++ renderNamedArgs T names args ++ [')']
/-- The texts of the arguments, separated by `, `. -/
def renderNamedArgs (T : ConstTable) (names : Cell → List Char) : List Term → List Char
  | [] => []
  | [a] => renderNamed T names a
  | a :: b :: rest => renderNamed T names a ++ [',', ' '] ++ renderNamedArgs T names (b :: rest)
end

end Term

/-- The distinct cells of a list in the order of their first occurrence, behind
the cells `seen` before. -/
def firstSeen (seen : List Cell) : List Cell → List Cell
  | [] => seen
  | v :: rest => firstSeen (if v ∈ seen then seen else seen ++ [v]) rest

namespace Item

/-- The unbound cells of an item. -/
def varList : Item → List Cell
  | term t => t.varList
  | comma => []
  | close => []

/-- The unbound cell named when the item itself is popped. -/
def ownVars : Item → List Cell
  | term (.var v) => [v]
  | _ => []

/-- The text an item stands for, its variables written by `names`. -/
def renderNamed (T : ConstTable) (names : Cell → List Char) : Item → List Char
  | term t => t.renderNamed T names
  | comma => [',', ' ']
  | close => [')']

/-- The text printed when the item itself is popped, a variable written by
`names`. -/
def ownTextNamed (T : ConstTable) (names : Cell → List Char) : Item → List Char
  | term (.con cref) => T.name cref
  | term (.var v) => names v
  | term (.str functor _) => T.name functor ++ ['(']
  | comma => [',', ' ']
  | close => [')']

end Item

/-- The unbound cells of a list of items, in order. -/
def itemsVarList (items : List Item) : List Cell := (items.map Item.varList).flatten

/-- The text a list of items stands for, its variables written by `names`. -/
def renderItemsNamed (T : ConstTable) (names : Cell → List Char) (items : List Item) :
    List Char :=
  (items.map (Item.renderNamed T names)).flatten

namespace Heap

/-- The heap after a display name is looked up or made for the unbound cell
`v`: the heap `getRefName` leaves. -/
def named (MAX_CONST_LENGTH : Nat) (H : Heap) (v : Cell) : Heap :=
  match H.getRefName MAX_CONST_LENGTH v with
  | some (_, H1) => H1
  | none => H

/-- The heap after display names are looked up or made for the cells of `vs`,
in order. -/
def namedAll (MAX_CONST_LENGTH : Nat) (H : Heap) (vs : List Cell) : Heap :=
  vs.foldl (named MAX_CONST_LENGTH) H

/-- The display name the cache holds for the cell `v`: the name of its display
constant. -/
def displayName (H : Heap) (v : Cell) : List Char :=
  match H.nameMapGet v with
  | some cref => H.thisConstTable.name cref
  | none => []

end Heap

/-! ## The rounds of the printing loop -/

namespace Heap

/-- The first `k` rounds of the `while` loop of `print` (fewer when the loop
ends before): the heap, the print state and the output after them. The body
of a round is the body of `print.loop`. -/
def print.rounds (MAX_CONST_LENGTH bound current : Nat) :
    Nat → Heap → PrintState → List Char → Option PrintRound
  | 0, H, state, out => some (H, state, out)
  | k + 1, H, state, out =>
    if current ≠ H.getSize then
      match H.pop with
      | none => none
      | some (top, H) =>
        match H.deref top with
        | none => none
        | some cell =>
          match print.token MAX_CONST_LENGTH bound H state out cell with
          | none => none
          | some (H, state, out) => print.rounds MAX_CONST_LENGTH bound current k H state out
    else some (H, state, out)

end Heap

/-! ## Nesting depth and the indent depth of a traversal -/

namespace Term

mutual
/-- The nesting depth of a term: `0` for a constant or a variable, one more
than the deepest argument for a structure. It is the number of columns
`print` marks, one inside the other, on the way to the deepest argument. -/
def depth : Term → Nat
  | .con _ => 0
  | .var _ => 0
  | .str _ args => depthArgs args + 1
/-- The nesting depth of the deepest of the arguments. -/
def depthArgs : List Term → Nat
  | [] => 0
  | a :: rest => max (depth a) (depthArgs rest)
end

end Term

namespace Item

/-- The nesting depth of the term of an item. -/
def depth : Item → Nat
  | term t => t.depth
  | comma => 0
  | close => 0

end Item

namespace ConstTable

theorem isReserved_iff (ch : Char) : isReserved ch = true ↔ ch ∈ RESERVED := by
  simp [isReserved]

theorem escapeName_scan_eq (name : List Char) (u : Bool) :
    escapeName.scan name u = (u || name.any (fun ch => decide (ch ∈ RESERVED))) := by
  induction name with
  | nil => simp [escapeName.scan]
  | cons ch rest ih =>
    by_cases h : ch ∈ RESERVED
    · simp [escapeName.scan, isReserved, h]
    · simp [escapeName.scan, isReserved, h, ih]

theorem escapeName_copy_eq (name : List Char) (out : List Char) :
    escapeName.copy name out = out ++ backslashed name := by
  induction name generalizing out with
  | nil => simp [escapeName.copy, backslashed]
  | cons ch rest ih =>
    by_cases h : ch = BACKSLASH ∨ ch = QUOTE
    · simp [escapeName.copy, backslashed, h, ih]
    · simp [escapeName.copy, backslashed, h, ih]

theorem backslashed_of_not_reserved (name : List Char)
    (h : name.any (fun ch => decide (ch ∈ RESERVED)) = false) : backslashed name = name := by
  induction name with
  | nil => rfl
  | cons ch rest ih =>
    simp only [List.any_cons, Bool.or_eq_false_iff, decide_eq_false_iff_not] at h
    have h1 : ¬ (ch = BACKSLASH ∨ ch = QUOTE) := by
      rintro (rfl | rfl) <;> exact h.1 (by decide)
    simp [backslashed, h1, ih h.2]

theorem needsQuotes_eq (name : List Char) :
    escapeName.scan name (decide ('A' ≤ name.headD NUL ∧ name.headD NUL ≤ 'Z')) = needsQuotes name := by
  rw [escapeName_scan_eq]
  cases name with
  | nil => simp [needsQuotes]; decide
  | cons ch rest => simp [needsQuotes]

theorem escapeName_eq_quotingRule (name : List Char) : escapeName name = quotingRule name := by
  unfold escapeName quotingRule
  simp only [needsQuotes_eq, escapeName_copy_eq]
  cases h : needsQuotes name
  · have h2 : name.any (fun ch => decide (ch ∈ RESERVED)) = false := by
      unfold needsQuotes at h
      simp only [Bool.or_eq_false_iff] at h
      exact h.2
    simp [backslashed_of_not_reserved name h2]
  · simp

theorem Extends.same (t : ConstTable) : Extends t t := ⟨fun _ _ => rfl, fun _ _ h => h⟩

theorem Extends.chain {a b c : ConstTable} (h1 : Extends a b) (h2 : Extends b c) : Extends a c := by
  refine ⟨fun str h => ?_, fun ref data h => h2.2 _ _ (h1.2 _ _ h)⟩
  have e1 := h1.1 str h
  have : b.find str ≠ ⟨0⟩ := by rw [e1]; exact h
  rw [h2.1 str this, e1]

theorem find_addConst_self (t : ConstTable) (name : List Char) (arity : Nat) :
    (t.addConst name arity).2.find ⟨name, arity⟩ = ⟨t.entries.length + 1⟩ := by
  simp [addConst, find]

theorem find_addConst_ne (t : ConstTable) (name : List Char) (arity : Nat) (str : ConstString)
    (h : str ≠ ⟨name, arity⟩) : (t.addConst name arity).2.find str = t.find str := by
  have h2 : ¬ ((⟨name, arity⟩ : ConstString) = str) := fun e => h e.symm
  simp [addConst, find, List.find?_cons, h2]

theorem record_addConst (t : ConstTable) (name : List Char) (arity : Nat) (ref : ConstRef)
    (data : ConstString) (h : t.record ref = some data) :
    (t.addConst name arity).2.record ref = some data := by
  unfold record at h ⊢
  by_cases h0 : ref.index = 0
  · simp [h0] at h
  · simp only [h0, if_false] at h ⊢
    simp only [addConst]
    rw [List.get?_eq_getElem?] at h ⊢
    have hlt : ref.index - 1 < t.entries.length := by
      by_contra hc
      have hn : t.entries[ref.index - 1]? = none := List.getElem?_eq_none (by omega)
      rw [hn] at h
      cases h
    rw [List.getElem?_append_left hlt]
    exact h

theorem record_addConst_self (t : ConstTable) (name : List Char) (arity : Nat) :
    (t.addConst name arity).2.record (t.addConst name arity).1 = some ⟨name, arity⟩ := by
  simp [addConst, record, List.get?_eq_getElem?]

theorem extends_addConst (t : ConstTable) (name : List Char) (arity : Nat)
    (h : t.find ⟨name, arity⟩ = ⟨0⟩) : Extends t (t.addConst name arity).2 := by
  refine ⟨fun str hs => ?_, fun ref data hr => record_addConst t name arity ref data hr⟩
  apply find_addConst_ne
  rintro rfl
  exact hs h

theorem consistent_addConst (t : ConstTable) (name : List Char) (arity : Nat)
    (h : Consistent t) : Consistent (t.addConst name arity).2 := by
  intro p hp
  have hp2 : p = (⟨name, arity⟩, ⟨t.entries.length + 1⟩) ∨ p ∈ t.thisIndexing := by
    simpa [addConst] using hp
  rcases hp2 with rfl | hp2
  · exact record_addConst_self t name arity
  · exact record_addConst t name arity _ _ (h p hp2)

theorem record_of_find (t : ConstTable) (h : Consistent t) (str : ConstString)
    (h0 : t.find str ≠ ⟨0⟩) : t.record (t.find str) = some str := by
  unfold find at h0 ⊢
  cases hf : t.thisIndexing.find? (fun p => p.1 = str) with
  | none => simp [hf] at h0
  | some p =>
    simp only [hf]
    have hm := List.mem_of_find?_eq_some hf
    have hk := List.find?_some hf
    simp only [decide_eq_true_eq] at hk
    rw [h p hm, hk]

/-- What `getConstNoEscape` returns: the reference bound to the symbol, after
binding it to a new entry when it had none. -/
theorem getConstNoEscape_spec (M : Nat) (t : ConstTable) (name : List Char) (arity : Nat)
    (h : name.length < M) :
    ∃ r t1, getConstNoEscape M t name arity = some (r, t1) ∧ r ≠ ⟨0⟩ ∧
      t1.find ⟨name, arity⟩ = r ∧ Extends t t1 ∧
      (t.find ⟨name, arity⟩ ≠ ⟨0⟩ → t1 = t) ∧
      (Consistent t → Consistent t1 ∧ t1.record r = some ⟨name, arity⟩) := by
  unfold getConstNoEscape findConstNoEscape
  simp only [h, if_true]
  by_cases h0 : t.find ⟨name, arity⟩ = ⟨0⟩
  · simp only [if_pos h0]
    refine ⟨_, _, rfl, ?_, ?_, extends_addConst t name arity h0, fun hc => absurd h0 hc, fun hc => ?_⟩
    · simp [addConst]
    · exact find_addConst_self t name arity
    · exact ⟨consistent_addConst t name arity hc, record_addConst_self t name arity⟩
  · simp only [if_neg h0]
    exact ⟨_, _, rfl, h0, rfl, Extends.same t, fun _ => rfl, fun hc => ⟨hc, record_of_find t hc _ h0⟩⟩

theorem ConstString.print_zero (chars : List Char) : ConstString.print ⟨chars, 0⟩ = chars := by
  simp only [ConstString.print, ConstString.getLength, lt_self_iff_false, if_false]
  apply List.ext_getElem?
  intro i
  by_cases hi : i < chars.length
  · simp [List.getElem?_map, List.getElem?_range hi, List.getD_eq_getElem?_getD, List.getElem?_eq_getElem hi]
  · rw [List.getElem?_eq_none (by simpa using hi), List.getElem?_eq_none (by simpa using hi)]

theorem getConstOrdinal_eq (M : Nat) (t : ConstTable) (ordinal : Nat) (h : ordinal < 2 ^ 64) :
    getConstOrdinal M t ordinal = getConstNoEscape M t (getConstName ordinal) 0 := by
  have hs : ordinal ≤ SIZE_MAX := by
    unfold SIZE_MAX
    omega
  simp [getConstOrdinal, hs]

end ConstTable

/-! ## Lemmas on ordinal names -/

namespace ConstTable

theorem letters_eq (fuel n : Nat) (acc : List Char) (h : n ≤ fuel) :
    getConstName.letters fuel n acc = acc ++ (Nat.digits 26 n).map letter := by
  induction fuel generalizing n acc with
  | zero =>
    have : n = 0 := by omega
    subst this
    simp [getConstName.letters]
  | succ fuel ih =>
    unfold getConstName.letters
    by_cases hn : n > 0
    · have hlen : ALPHABET1.length = 26 := rfl
      simp only [hn, if_true, hlen]
      have hdiv : n / 26 ≤ fuel := by
        have := Nat.div_lt_self hn (by norm_num : 1 < 26)
        omega
      rw [ih (n / 26) _ hdiv, Nat.digits_def' (by norm_num) hn]
      simp [letter]
    · have : n = 0 := by omega
      subst this
      simp

theorem swap_getElem? (i : Nat) (name : List Char) (j p : Nat) (hj : j < name.length)
    (hi : i - j - 1 < name.length) :
    (getConstName.swap i name j)[p]? =
      if p = i - j - 1 then name[j]? else if p = j then name[i - j - 1]? else name[p]? := by
  unfold getConstName.swap
  simp only [List.getElem?_set, List.length_set, List.getD_eq_getElem?_getD,
    List.getElem?_eq_getElem hj, List.getElem?_eq_getElem hi, Option.getD_some]
  by_cases h1 : i - j - 1 = p
  · subst h1
    simp [hi]
  · have h1b : ¬ p = i - j - 1 := fun e => h1 e.symm
    by_cases h2 : j = p
    · subst h2
      simp [h1, hj, h1b]
    · have h2b : ¬ p = j := fun e => h2 e.symm
      simp [h1, h2, h1b, h2b]

theorem fold_swap (l : List Char) (k : Nat) (hk : 2 * k ≤ l.length) :
    ((List.range k).foldl (getConstName.swap l.length) l).length = l.length ∧
    ∀ p, ((List.range k).foldl (getConstName.swap l.length) l)[p]? =
      if p < k ∨ (l.length - k ≤ p ∧ p < l.length) then l[l.length - 1 - p]? else l[p]? := by
  induction k with
  | zero =>
    refine ⟨rfl, fun p => ?_⟩
    have : ¬ (p < 0 ∨ (l.length - 0 ≤ p ∧ p < l.length)) := by omega
    simp only [List.range_zero, List.foldl_nil, this, if_false]
  | succ k ih =>
    obtain ⟨hlen, hget⟩ := ih (by omega)
    rw [List.range_succ, List.foldl_append]
    simp only [List.foldl_cons, List.foldl_nil]
    refine ⟨by simp [getConstName.swap, hlen], fun p => ?_⟩
    rw [swap_getElem? _ _ _ _ (by omega) (by omega)]
    by_cases h1 : p = l.length - k - 1
    · have c1 : p < k + 1 ∨ (l.length - (k + 1) ≤ p ∧ p < l.length) := by omega
      have c2 : ¬ (k < k ∨ (l.length - k ≤ k ∧ k < l.length)) := by omega
      have e : l.length - 1 - p = k := by omega
      simp only [h1, if_true] at c1 ⊢
      rw [hget k, if_neg c2, if_pos c1]
      rw [← h1, e]
    · by_cases h2 : p = k
      · have c1 : p < k + 1 ∨ (l.length - (k + 1) ≤ p ∧ p < l.length) := by omega
        have c2 : ¬ (l.length - k - 1 < k ∨
            (l.length - k ≤ l.length - k - 1 ∧ l.length - k - 1 < l.length)) := by omega
        have e : l.length - 1 - p = l.length - k - 1 := by omega
        rw [if_neg h1, if_pos h2, hget, if_neg c2, if_pos c1, e]
      · rw [if_neg h1, if_neg h2, hget]
        by_cases c : p < k ∨ (l.length - k ≤ p ∧ p < l.length)
        · have c1 : p < k + 1 ∨ (l.length - (k + 1) ≤ p ∧ p < l.length) := by omega
          rw [if_pos c, if_pos c1]
        · have c1 : ¬ (p < k + 1 ∨ (l.length - (k + 1) ≤ p ∧ p < l.length)) := by omega
          rw [if_neg c, if_neg c1]

theorem fold_swap_eq_reverse (l : List Char) :
    (List.range (l.length / 2)).foldl (getConstName.swap l.length) l = l.reverse := by
  obtain ⟨hlen, hget⟩ := fold_swap l (l.length / 2) (by omega)
  apply List.ext_getElem?
  intro p
  rw [hget]
  by_cases hp : p < l.length
  · rw [List.getElem?_reverse hp]
    by_cases c : p < l.length / 2 ∨ (l.length - l.length / 2 ≤ p ∧ p < l.length)
    · rw [if_pos c]
    · rw [if_neg c]
      have e : l.length - 1 - p = p := by omega
      rw [e]
  · have c : ¬ (p < l.length / 2 ∨ (l.length - l.length / 2 ≤ p ∧ p < l.length)) := by omega
    rw [if_neg c, List.getElem?_eq_none (by omega), List.getElem?_eq_none (by simp; omega)]

theorem getConstName_pos (n : Nat) (hn : 0 < n) :
    getConstName n =
      if ((msd n).map letter).length > 1 then
        ((msd n).map letter).set 0 (Char.ofNat ((((msd n).map letter).getD 0 NUL).toNat - 1))
      else (msd n).map letter := by
  unfold getConstName
  have h0 : ¬ n = 0 := by omega
  simp only [h0, if_false]
  rw [letters_eq n n [] (le_refl n)]
  simp only [List.nil_append]
  rw [fold_swap_eq_reverse]
  simp only [msd, List.map_reverse, List.length_reverse]

theorem letter_injective : ∀ j < 26, ∀ k < 26, letter j = letter k → j = k := by decide

theorem pred_letter : ∀ d < 26, 1 ≤ d → Char.ofNat ((letter d).toNat - 1) = letter (d - 1) := by
  decide

theorem letter_mem : ∀ k < 26, letter k ∈ ALPHABET1 := by decide

theorem letter_eq_Z : ∀ k < 26, letter k = 'Z' → k = 25 := by decide

theorem map_letter_injective (l1 l2 : List Nat) (h1 : ∀ x ∈ l1, x < 26) (h2 : ∀ x ∈ l2, x < 26)
    (h : l1.map letter = l2.map letter) : l1 = l2 := by
  induction l1 generalizing l2 with
  | nil =>
    cases l2 with
    | nil => rfl
    | cons b bs => simp at h
  | cons a as ih =>
    cases l2 with
    | nil => simp at h
    | cons b bs =>
      simp only [List.map_cons, List.cons.injEq] at h
      have hab := letter_injective a (h1 a (by simp)) b (h2 b (by simp)) h.1
      rw [hab, ih bs (fun x hx => h1 x (by simp [hx])) (fun x hx => h2 x (by simp [hx])) h.2]

theorem msd_lt (n : Nat) : ∀ x ∈ msd n, x < 26 := by
  intro x hx
  exact Nat.digits_lt_base (by norm_num) (List.mem_reverse.mp hx)

theorem msd_small (n : Nat) (h0 : 0 < n) (h : n < 26) : msd n = [n] := by
  simp [msd, Nat.digits_of_lt 26 n (by omega) h]

theorem msd_large (n : Nat) (h : 26 ≤ n) :
    ∃ d rest, msd n = d :: rest ∧ rest ≠ [] ∧ 1 ≤ d := by
  have hn : n ≠ 0 := by omega
  have hlast := Nat.getLast_digit_ne_zero 26 hn
  have hd : Nat.digits 26 n = n % 26 :: Nat.digits 26 (n / 26) :=
    Nat.digits_def' (by norm_num) (by omega)
  have hq : 0 < n / 26 := Nat.div_pos h (by norm_num)
  have hd2 : Nat.digits 26 (n / 26) ≠ [] := by
    rw [Nat.digits_def' (by norm_num) hq]
    simp
  cases hm : msd n with
  | nil =>
    simp [msd, hd] at hm
  | cons d rest =>
    refine ⟨d, rest, rfl, ?_, ?_⟩
    · rintro rfl
      have hl : (msd n).length = 1 := by rw [hm]; rfl
      simp only [msd, List.length_reverse, hd, List.length_cons] at hl
      have : (Nat.digits 26 (n / 26)).length = 0 := by omega
      exact hd2 (List.length_eq_zero.mp this)
    · have hne : Nat.digits 26 n ≠ [] := by rw [hd]; simp
      have hh : (msd n).head? = some ((Nat.digits 26 n).getLast hne) := by
        simp [msd, List.head?_reverse, List.getLast?_eq_getLast _ hne]
      rw [hm] at hh
      simp only [List.head?_cons, Option.some.injEq] at hh
      have : d ≠ 0 := by rw [hh]; exact hlast
      omega

theorem getConstName_small (n : Nat) (h : n < 26) : getConstName n = [letter n] := by
  rcases Nat.eq_zero_or_pos n with rfl | h0
  · rfl
  · rw [getConstName_pos n h0, msd_small n h0 h]
    simp

theorem getConstName_large (n : Nat) (d : Nat) (rest : List Nat) (hm : msd n = d :: rest)
    (hr : rest ≠ []) (hd : 1 ≤ d) :
    getConstName n = letter (d - 1) :: rest.map letter := by
  have hn : 0 < n := by
    rcases Nat.eq_zero_or_pos n with rfl | h0
    · simp [msd] at hm
    · exact h0
  have hd26 : d < 26 := msd_lt n d (by rw [hm]; simp)
  have hlen : 1 < rest.length + 1 := by
    have := List.length_pos.mpr hr
    omega
  rw [getConstName_pos n hn, hm]
  simp only [List.map_cons, List.length_cons, List.length_map, gt_iff_lt, hlen, if_true,
    List.set_cons_zero, List.getD_cons_zero]
  rw [pred_letter d hd26 hd]

theorem getConstName_injective (m n : Nat) (h : getConstName m = getConstName n) : m = n := by
  have key : ∀ a b : Nat, a < 26 → 26 ≤ b → getConstName a = getConstName b → False := by
    intro a b ha hb hab
    obtain ⟨d, rest, hm, hr, hd⟩ := msd_large b hb
    rw [getConstName_small a ha, getConstName_large b d rest hm hr hd] at hab
    cases rest with
    | nil => exact hr rfl
    | cons x xs => simp at hab
  by_cases hm : m < 26 <;> by_cases hn : n < 26
  · rw [getConstName_small m hm, getConstName_small n hn] at h
    exact letter_injective m hm n hn (by simpa using h)
  · exact (key m n hm (by omega) h).elim
  · exact (key n m hn (by omega) h.symm).elim
  · obtain ⟨d1, r1, hm1, hr1, hd1⟩ := msd_large m (by omega)
    obtain ⟨d2, r2, hm2, hr2, hd2⟩ := msd_large n (by omega)
    rw [getConstName_large m d1 r1 hm1 hr1 hd1, getConstName_large n d2 r2 hm2 hr2 hd2] at h
    simp only [List.cons.injEq] at h
    have b1 := msd_lt m
    have b2 := msd_lt n
    rw [hm1] at b1
    rw [hm2] at b2
    have e1 := letter_injective (d1 - 1) (by have := b1 d1 (by simp); omega) (d2 - 1)
      (by have := b2 d2 (by simp); omega) h.1
    have e2 := map_letter_injective r1 r2 (fun x hx => b1 x (by simp [hx]))
      (fun x hx => b2 x (by simp [hx])) h.2
    have e3 : msd m = msd n := by
      rw [hm1, hm2, e2]
      congr 1
      omega
    have e4 : Nat.digits 26 m = Nat.digits 26 n := by
      have := congrArg List.reverse e3
      simpa [msd] using this
    exact Nat.digits_inj_iff.mp e4

end ConstTable

namespace ConstTable

theorem msd_two (n : Nat) (h1 : 26 ≤ n) (h2 : n < 676) : msd n = [n / 26, n % 26] := by
  have hq : 0 < n / 26 := Nat.div_pos h1 (by norm_num)
  have hq2 : n / 26 < 26 := by omega
  simp [msd, Nat.digits_def' (by norm_num : 1 < 26) (by omega : 0 < n),
    Nat.digits_of_lt 26 (n / 26) (by omega) hq2]

theorem getConstName_isOrdinalName (n : Nat) : IsOrdinalName (getConstName n) := by
  by_cases hn : n < 26
  · rw [getConstName_small n hn]
    refine ⟨by simp, ?_, Or.inl rfl⟩
    intro ch hch
    simp only [List.mem_singleton] at hch
    rw [hch]
    exact letter_mem n hn
  · obtain ⟨d, rest, hm, hr, hd⟩ := msd_large n (by omega)
    have b := msd_lt n
    rw [hm] at b
    have hd26 : d < 26 := b d (by simp)
    rw [getConstName_large n d rest hm hr hd]
    refine ⟨by simp, ?_, Or.inr ?_⟩
    · intro ch hch
      simp only [List.mem_cons, List.mem_map] at hch
      rcases hch with rfl | ⟨x, hx, rfl⟩
      · exact letter_mem (d - 1) (by omega)
      · exact letter_mem x (b x (by simp [hx]))
    · simp only [List.head?_cons, ne_eq, Option.some.injEq]
      intro hz
      have := letter_eq_Z (d - 1) (by omega) hz
      omega

theorem letter_indexOf (ch : Char) (h : ch ∈ ALPHABET1) :
    List.indexOf ch ALPHABET1 < 26 ∧ letter (List.indexOf ch ALPHABET1) = ch := by
  have hlt : List.indexOf ch ALPHABET1 < ALPHABET1.length := List.indexOf_lt_length.mpr h
  refine ⟨hlt, ?_⟩
  unfold letter
  rw [List.getD_eq_getElem?_getD, List.getElem?_eq_getElem hlt, Option.getD_some]
  exact List.getElem_indexOf hlt

theorem getConstName_nameOrdinal (s : List Char) (h : IsOrdinalName s) :
    getConstName (nameOrdinal s) = s := by
  obtain ⟨hne, hmem, hz⟩ := h
  cases s with
  | nil => exact absurd rfl hne
  | cons ch rest =>
    have hc := letter_indexOf ch (hmem ch (by simp))
    cases hrest : rest with
    | nil =>
      show getConstName (List.indexOf ch ALPHABET1) = _
      rw [getConstName_small _ hc.1, hc.2]
    | cons c2 cs =>
      have hord : nameOrdinal (ch :: c2 :: cs) =
          Nat.ofDigits 26 (((List.indexOf ch ALPHABET1 + 1) ::
            (c2 :: cs).map (fun c => List.indexOf c ALPHABET1)).reverse) := rfl
      rw [hord, ← hrest]
      have hrne : rest ≠ [] := by rw [hrest]; simp
      have hnz : ch ≠ 'Z' := by
        rcases hz with hl | hh
        · rw [hrest] at hl
          simp at hl
        · simpa using hh
      have hk : List.indexOf ch ALPHABET1 < 25 := by
        have h25 : List.indexOf ch ALPHABET1 ≠ 25 := by
          intro e
          have := hc.2
          rw [e] at this
          exact hnz this.symm
        omega
      let D : List Nat :=
        (List.indexOf ch ALPHABET1 + 1) :: rest.map (fun c => List.indexOf c ALPHABET1)
      have hD : ∀ x ∈ D.reverse, x < 26 := by
        intro x hx
        simp only [D, List.mem_reverse, List.mem_cons, List.mem_map] at hx
        rcases hx with rfl | ⟨c, hcm, rfl⟩
        · omega
        · exact (letter_indexOf c (hmem c (by simp [hcm]))).1
      have hlast : ∀ (hh : D.reverse ≠ []), D.reverse.getLast hh ≠ 0 := by
        intro hh
        simp [D]
      have hdig := Nat.digits_ofDigits 26 (by norm_num) D.reverse hD hlast
      have hm : msd (Nat.ofDigits 26 D.reverse) = D := by
        simp only [msd, hdig, List.reverse_reverse]
      show getConstName (Nat.ofDigits 26 D.reverse) = _
      rw [getConstName_large _ _ _ hm (by simpa using hrne) (by omega)]
      simp only [Nat.add_sub_cancel, hc.2, List.map_map, List.cons.injEq, true_and]
      conv_rhs => rw [← List.map_id rest]
      apply List.map_congr_left
      intro c hcm
      exact (letter_indexOf c (hmem c (by simp [hcm]))).2

theorem exists_of_isOrdinalName (s : List Char) (h : IsOrdinalName s) :
    ∃ n, getConstName n = s :=
  ⟨nameOrdinal s, getConstName_nameOrdinal s h⟩

theorem nameOrdinal_getConstName (n : Nat) : nameOrdinal (getConstName n) = n :=
  getConstName_injective _ _
    (getConstName_nameOrdinal _ (getConstName_isOrdinalName n))

/-- A name of at most 13 letters stands for an ordinal below `26 ^ 13`. -/
theorem nameOrdinal_lt (s : List Char) (h : IsOrdinalName s) (hlen : s.length ≤ 13) :
    nameOrdinal s < 26 ^ 13 := by
  obtain ⟨hne, hmem, hz⟩ := h
  cases s with
  | nil => exact absurd rfl hne
  | cons ch rest =>
    have hc := letter_indexOf ch (hmem ch (by simp))
    cases hrest : rest with
    | nil =>
      show List.indexOf ch ALPHABET1 < 26 ^ 13
      have : (26 : Nat) ≤ 26 ^ 13 := by norm_num
      omega
    | cons c2 cs =>
      have hord : nameOrdinal (ch :: c2 :: cs) =
          Nat.ofDigits 26 (((List.indexOf ch ALPHABET1 + 1) ::
            (c2 :: cs).map (fun c => List.indexOf c ALPHABET1)).reverse) := rfl
      rw [hord, ← hrest]
      have hnz : ch ≠ 'Z' := by
        rcases hz with hl | hh
        · rw [hrest] at hl
          simp at hl
        · simpa using hh
      have hk : List.indexOf ch ALPHABET1 < 25 := by
        have h25 : List.indexOf ch ALPHABET1 ≠ 25 := by
          intro e
          have := hc.2
          rw [e] at this
          exact hnz this.symm
        omega
      have hD : ∀ x ∈ ((List.indexOf ch ALPHABET1 + 1) ::
          rest.map (fun c => List.indexOf c ALPHABET1)).reverse, x < 26 := by
        intro x hx
        simp only [List.mem_reverse, List.mem_cons, List.mem_map] at hx
        rcases hx with rfl | ⟨c, hcm, rfl⟩
        · omega
        · exact (letter_indexOf c (hmem c (by simp [hcm]))).1
      have hlt := Nat.ofDigits_lt_base_pow_length (b := 26) (by norm_num) hD
      have hl : (((List.indexOf ch ALPHABET1 + 1) ::
          rest.map (fun c => List.indexOf c ALPHABET1)).reverse).length ≤ 13 := by
        simpa using hlen
      exact lt_of_lt_of_le hlt (Nat.pow_le_pow_right (by norm_num) hl)

end ConstTable
/-! ## Lemmas on the heap operations -/

theorem getCellAt_succ (cells : List Cell) (i : Nat) : getCellAt cells ⟨i + 1⟩ = cells[i]? := by
  simp [getCellAt, List.get?_eq_getElem?]

theorem derefAt_CON (cells : List Cell) (k : Nat) : derefAt cells (.CON k) = some (.CON k) := rfl

theorem derefAt_EXT (cells : List Cell) (e : ExtTag) (k : Nat) :
    derefAt cells (.EXT e k) = some (.EXT e k) := rfl

namespace ConstTable

theorem Extends.lookups {t t1 : ConstTable} (h : Extends t t1) (ref : ConstRef)
    (hr : (t.record ref).isSome = true) :
    t1.getConstLength ref = t.getConstLength ref ∧ t1.getConstArity ref = t.getConstArity ref ∧
      t1.printConstNoArity ref = t.printConstNoArity ref ∧ (t1.record ref).isSome = true := by
  obtain ⟨data, hd⟩ := Option.isSome_iff_exists.mp hr
  have h1 := h.2 ref data hd
  simp [ConstTable.getConstLength, ConstTable.getConstArity, ConstTable.printConstNoArity, h1, hd]

theorem record_of_arity {t : ConstTable} {ref : ConstRef} {n : Nat}
    (h : t.getConstArity ref = some n) : (t.record ref).isSome = true := by
  unfold ConstTable.getConstArity at h
  cases hr : t.record ref with
  | none => simp [hr] at h
  | some d => rfl

theorem lookups_of_record {t : ConstTable} {ref : ConstRef} (h : (t.record ref).isSome = true) :
    ∃ len, t.getConstLength ref = some len ∧
      t.printConstNoArity ref = some (t.name ref) ∧ (t.name ref).length = len := by
  obtain ⟨data, hd⟩ := Option.isSome_iff_exists.mp h
  refine ⟨data.chars.length, ?_, ?_, ?_⟩
  · simp [ConstTable.getConstLength, hd, ConstString.getLength]
  · simp [ConstTable.name, ConstTable.printConstNoArity, hd]
  · simp [ConstTable.name, ConstTable.printConstNoArity, hd, ConstString.print_zero]

theorem name_extends {t t1 : ConstTable} (h : Extends t t1) (ref : ConstRef)
    (hr : (t.record ref).isSome = true) : t1.name ref = t.name ref := by
  unfold ConstTable.name
  rw [(h.lookups ref hr).2.2.1]

end ConstTable

namespace Heap

theorem Evolves.still (M : Nat) (H : Heap) : Evolves M H H :=
  ⟨rfl, ConstTable.Extends.same _, id⟩

theorem Evolves.next {M : Nat} {a b c : Heap} (h1 : Evolves M a b) (h2 : Evolves M b c) :
    Evolves M a c :=
  ⟨h2.1.trans h1.1, h1.2.1.chain h2.2.1, fun g => h2.2.2 (h1.2.2 g)⟩

theorem Evolves.to_withStack (M : Nat) (H : Heap) (s : List Cell) : Evolves M H (H.withStack s) :=
  ⟨rfl, ConstTable.Extends.same _, id⟩

theorem Evolves.of_withStack {M : Nat} {H H1 : Heap} (s : List Cell)
    (h : Evolves M (H.withStack s) H1) : Evolves M H H1 :=
  (Evolves.to_withStack M H s).next h

theorem withStack_self (H : Heap) : H.withStack H.thisStack = H := rfl

theorem withStack_withStack (H : Heap) (s s1 : List Cell) :
    (H.withStack s).withStack s1 = H.withStack s1 := rfl

theorem eq_withStack (H : Heap) (s : List Cell) (h : H.thisStack = s) : H = H.withStack s := by
  subst h
  rfl

theorem push_withStack (H : Heap) (s : List Cell) (c : Cell) :
    (H.withStack s).push c = H.withStack (c :: s) := rfl

theorem pushArgs_loop_append (ref : HeapRef) (arity : Nat) (l1 l2 : List Nat) (H : Heap) :
    pushArgs.loop ref arity (l1 ++ l2) H =
      (pushArgs.loop ref arity l1 H).bind (pushArgs.loop ref arity l2) := by
  induction l1 generalizing H with
  | nil => rfl
  | cons i rest ih =>
    simp only [List.cons_append, pushArgs.loop]
    cases hg : getCell (if i > 0 then H.push (.EXT .EXT_COMMA 0) else H) ⟨ref.index + arity - i⟩ with
    | none => rfl
    | some arg => exact ih _

theorem argStack_cons (a : Cell) (rest : List Cell) :
    argStack (a :: rest) =
      a :: ((if rest = [] then [] else [.EXT .EXT_COMMA 0]) ++ argStack rest) := by
  cases rest with
  | nil => rfl
  | cons b r => simp [argStack]

theorem pushArgs_loop_range (H : Heap) (h n : Nat) (S : List Cell)
    (hlen : ((H.cells.drop h).take n).length = n) (k : Nat) (hk : k ≤ n) :
    pushArgs.loop ⟨h⟩ n (List.range k) (H.withStack (.EXT .EXT_END 0 :: S)) =
      some (H.withStack (argStack (((H.cells.drop h).take n).drop (n - k)) ++ S)) := by
  induction k with
  | zero =>
    have : ((H.cells.drop h).take n).drop (n - 0) = [] := by
      apply List.drop_eq_nil_of_le
      omega
    simp only [List.range_zero, pushArgs.loop, this]
    rfl
  | succ k ih =>
    rw [List.range_succ, pushArgs_loop_append, ih (by omega)]
    simp only [Option.some_bind, pushArgs.loop]
    have hj : n - (k + 1) < ((H.cells.drop h).take n).length := by omega
    have hdrop : ((H.cells.drop h).take n).drop (n - (k + 1)) =
        ((H.cells.drop h).take n)[n - (k + 1)] :: ((H.cells.drop h).take n).drop (n - k) := by
      rw [List.drop_eq_getElem_cons hj]
      congr 2
      omega
    have hcell : ∀ s : List Cell, getCell (H.withStack s) ⟨h + n - k⟩ =
        some ((H.cells.drop h).take n)[n - (k + 1)] := by
      intro s
      have e : h + n - k = (h + (n - (k + 1))) + 1 := by omega
      show getCellAt H.cells ⟨h + n - k⟩ = _
      rw [e, getCellAt_succ]
      rw [List.getElem_take, List.getElem_drop, List.getElem?_eq_getElem]
    by_cases hk0 : k > 0
    · have hne : ((H.cells.drop h).take n).drop (n - k) ≠ [] := by
        intro e
        have := congrArg List.length e
        simp only [List.length_drop, List.length_nil] at this
        omega
      simp only [hk0, if_true, push_withStack, hcell]
      rw [hdrop, argStack_cons, if_neg hne]
      simp
    · have hk1 : k = 0 := by omega
      subst hk1
      have he : ((H.cells.drop h).take n).drop (n - 0) = [] := by
        apply List.drop_eq_nil_of_le
        omega
      simp only [gt_iff_lt, lt_self_iff_false, if_false, push_withStack, hcell]
      rw [hdrop, argStack_cons, he]
      simp

theorem pushArgs_spec (H : Heap) (h n f : Nat)
    (hcell : getCellAt H.cells ⟨h⟩ = some (.CON f))
    (harity : H.thisConstTable.getConstArity ⟨f⟩ = some n) (hn : 0 < n)
    (hlen : ((H.cells.drop h).take n).length = n) :
    H.pushArgs ⟨h⟩ =
      some (⟨f⟩, H.withStack (argStack ((H.cells.drop h).take n) ++ H.thisStack)) := by
  unfold pushArgs
  simp only [getCell, hcell, Cell.toConstRef, Cell.getValue, harity, hn, if_true]
  have := pushArgs_loop_range H h n H.thisStack hlen n (le_refl n)
  simp only [Nat.sub_self, List.drop_zero] at this
  have e : H.push (.EXT .EXT_END 0) = H.withStack (.EXT .EXT_END 0 :: H.thisStack) := rfl
  rw [e, this]

end Heap

namespace Term

theorem represents_con {cells : List Cell} {T : ConstTable} {cref : ConstRef} {cell : Cell}
    (h : represents cells T (.con cref) cell = true) :
    derefAt cells cell = some (.CON cref.index) ∧ (T.record cref).isSome = true := by
  simpa [represents] using h

theorem represents_var {cells : List Cell} {T : ConstTable} {v cell : Cell}
    (h : represents cells T (.var v) cell = true) :
    derefAt cells cell = some v ∧ ∃ k, v = .REF k := by
  simp only [represents, Bool.and_eq_true, beq_iff_eq] at h
  refine ⟨h.1, ?_⟩
  cases v with
  | REF k => exact ⟨k, rfl⟩
  | CON k => simp at h
  | STR k => simp at h
  | EXT e k => simp at h

theorem represents_str {cells : List Cell} {T : ConstTable} {functor : ConstRef}
    {args : List Term} {cell : Cell} (h : represents cells T (.str functor args) cell = true) :
    ∃ header, derefAt cells cell = some (.STR header) ∧
      getCellAt cells ⟨header⟩ = some (.CON functor.index) ∧
      T.getConstArity functor = some args.length ∧ 0 < args.length ∧
      representsArgs cells T args ((cells.drop header).take args.length) = true := by
  unfold represents at h
  split at h
  · rename_i header hd
    simp only [Bool.and_eq_true, beq_iff_eq, decide_eq_true_eq] at h
    exact ⟨header, hd, h.1.1.1, h.1.1.2, h.1.2, h.2⟩
  · cases h

theorem representsArgs_length {cells : List Cell} {T : ConstTable} :
    ∀ (args : List Term) (cs : List Cell), representsArgs cells T args cs = true →
      cs.length = args.length
  | [], [], _ => rfl
  | [], _ :: _, h => by simp [representsArgs] at h
  | _ :: _, [], h => by simp [representsArgs] at h
  | _ :: rest, _ :: more, h => by
    simp only [representsArgs, Bool.and_eq_true] at h
    simp [representsArgs_length rest more h.2]

theorem representsArgs_items {cells : List Cell} {T : ConstTable} :
    ∀ (args : List Term) (cs : List Cell), representsArgs cells T args cs = true →
      RepItems cells T (argStack cs) (argItems args)
  | [], [], _ => by
    simp [RepItems, argStack, argItems, Item.represents]
  | [], _ :: _, h => by simp [representsArgs] at h
  | _ :: _, [], h => by simp [representsArgs] at h
  | [a], [c], h => by
    simp only [representsArgs, Bool.and_eq_true] at h
    simp [RepItems, argStack, argItems, Item.represents, h.1]
  | [_], _ :: _ :: _, h => by simp [representsArgs] at h
  | _ :: _ :: _, [_], h => by simp [representsArgs] at h
  | a :: b :: rest, c :: d :: more, h => by
    have h2 : represents cells T a c = true ∧ representsArgs cells T (b :: rest) (d :: more) = true := by
      simpa [representsArgs] using h
    have ih := representsArgs_items (b :: rest) (d :: more) h2.2
    simp only [RepItems, argStack, argItems] at ih ⊢
    exact List.Forall₂.cons h2.1 (List.Forall₂.cons rfl ih)

theorem itemsNeed_argItems : ∀ args : List Term, itemsNeed (argItems args) ≤ sizeArgs args
  | [] => by simp [itemsNeed, argItems, sizeArgs, Item.need]
  | [a] => by simp [itemsNeed, argItems, sizeArgs, Item.need]
  | a :: b :: rest => by
    have ih := itemsNeed_argItems (b :: rest)
    simp only [itemsNeed, argItems, List.map_cons, List.sum_cons, Item.need] at ih ⊢
    rw [sizeArgs]
    omega

theorem itemsVars_argItems : ∀ args : List Term, itemsVars (argItems args) = varsArgs args
  | [] => by simp [itemsVars, argItems, varsArgs, Item.vars]
  | [a] => by simp [itemsVars, argItems, varsArgs, Item.vars]
  | a :: b :: rest => by
    have ih := itemsVars_argItems (b :: rest)
    simp only [itemsVars, argItems, List.map_cons, List.sum_cons, Item.vars] at ih ⊢
    rw [varsArgs]
    omega

theorem renderItems_argItems (T : ConstTable) :
    ∀ args : List Term, renderItems T (argItems args) = renderArgs T args ++ [')']
  | [] => by simp [renderItems, argItems, renderArgs, Item.render]
  | [a] => by simp [renderItems, argItems, renderArgs, Item.render]
  | a :: b :: rest => by
    have ih := renderItems_argItems T (b :: rest)
    simp only [renderItems, argItems, List.map_cons, List.flatten_cons, Item.render] at ih ⊢
    rw [renderArgs, ih]
    simp

end Term

/-! ## Lemmas on items and on naming -/

theorem renderItems_cons (T : ConstTable) (item : Item) (items : List Item) :
    renderItems T (item :: items) = item.render T ++ renderItems T items := by
  simp [renderItems]

theorem renderItems_append (T : ConstTable) (l1 l2 : List Item) :
    renderItems T (l1 ++ l2) = renderItems T l1 ++ renderItems T l2 := by
  simp [renderItems]

theorem itemsNeed_cons (item : Item) (items : List Item) :
    itemsNeed (item :: items) = item.need + itemsNeed items := by
  simp [itemsNeed]

theorem itemsNeed_append (l1 l2 : List Item) :
    itemsNeed (l1 ++ l2) = itemsNeed l1 + itemsNeed l2 := by
  simp [itemsNeed]

theorem itemsVars_cons (item : Item) (items : List Item) :
    itemsVars (item :: items) = item.vars + itemsVars items := by
  simp [itemsVars]

theorem itemsVars_append (l1 l2 : List Item) :
    itemsVars (l1 ++ l2) = itemsVars l1 + itemsVars l2 := by
  simp [itemsVars]

namespace Item

theorem render_eq (T : ConstTable) (item : Item) :
    item.render T = item.ownText T ++ renderItems T item.expand := by
  cases item with
  | term t =>
    cases t with
    | con cref => simp [render, ownText, expand, renderItems, Term.render]
    | var v => simp [render, ownText, expand, renderItems, Term.render]
    | str functor args =>
      simp [render, ownText, expand, Term.render, Term.renderItems_argItems]
  | comma => simp [render, ownText, expand, renderItems]
  | close => simp [render, ownText, expand, renderItems]

theorem need_expand (item : Item) : itemsNeed item.expand < item.need := by
  cases item with
  | term t =>
    cases t with
    | con cref => simp [need, expand, itemsNeed, Term.size]
    | var v => simp [need, expand, itemsNeed, Term.size]
    | str functor args =>
      have := Term.itemsNeed_argItems args
      simp only [need, expand, Term.size]
      omega
  | comma => simp [need, expand, itemsNeed]
  | close => simp [need, expand, itemsNeed]

theorem vars_expand (item : Item) : itemsVars item.expand ≤ item.vars := by
  cases item with
  | term t =>
    cases t with
    | con cref => simp [vars, expand, itemsVars]
    | var v => simp [vars, expand, itemsVars]
    | str functor args =>
      simp [vars, expand, Term.vars, Term.itemsVars_argItems]
  | comma => simp [vars, expand, itemsVars]
  | close => simp [vars, expand, itemsVars]

end Item

theorem RepItems.append {cells : List Cell} {T : ConstTable} {t1 t2 : List Cell}
    {i1 i2 : List Item} (h1 : RepItems cells T t1 i1) (h2 : RepItems cells T t2 i2) :
    RepItems cells T (t1 ++ t2) (i1 ++ i2) := by
  unfold RepItems at *
  induction h1 with
  | nil => exact h2
  | cons h _ ih => exact List.Forall₂.cons h ih

namespace ConstTable

theorem getConstName_length_le (k : Nat) (hk : k < 2 ^ 64) : (getConstName k).length ≤ 14 := by
  rcases Nat.eq_zero_or_pos k with rfl | h0
  · decide
  · rw [getConstName_pos k h0]
    have hlen : (if ((msd k).map letter).length > 1 then
        ((msd k).map letter).set 0 (Char.ofNat ((((msd k).map letter).getD 0 NUL).toNat - 1))
      else (msd k).map letter).length = (Nat.digits 26 k).length := by
      split <;> simp [msd]
    rw [hlen]
    by_contra hc
    have h15 : 15 ≤ (Nat.digits 26 k).length := by omega
    have h1 := Nat.base_pow_length_digits_le 26 k (by norm_num) (by omega)
    have h2 : 26 ^ 15 ≤ 26 ^ (Nat.digits 26 k).length :=
      Nat.pow_le_pow_right (by norm_num) h15
    have h3 : (26 : Nat) ^ 15 ≤ 26 * k := le_trans h2 h1
    norm_num at h3 hk
    omega

end ConstTable

namespace Heap

theorem numEntries_lt (H : Heap) : H.numEntries < 2 ^ 64 := by
  unfold numEntries SIZE_MAX
  exact Nat.mod_lt _ (by norm_num)

theorem nameMapGet_mem (H : Heap) (cell : Cell) (cref : ConstRef)
    (h : H.nameMapGet cell = some cref) : ∃ p ∈ H.thisNameMap, p.2 = cref := by
  unfold nameMapGet at h
  cases hf : H.thisNameMap.find? (fun p => p.1 = cell) with
  | none => simp [hf] at h
  | some p =>
    simp only [hf, Option.map_some', Option.some.injEq] at h
    exact ⟨p, List.mem_of_find?_eq_some hf, h⟩

/-- A fresh display constant exists in a good state. -/
theorem getConstOrdinal_good (M : Nat) (H : Heap) (cell : Cell) (hg : Good M H) :
    ∃ cref table, H.thisConstTable.getConstOrdinal M H.numEntries = some (cref, table) ∧
      (table.record cref).isSome = true ∧
      Evolves M H { H with thisConstTable := table, thisNameMap := (cell, cref) :: H.thisNameMap } := by
  obtain ⟨hM, hc, hn⟩ := hg
  have hl := ConstTable.getConstName_length_le H.numEntries (numEntries_lt H)
  obtain ⟨r, t1, e, _, _, hx, _, hcons⟩ := ConstTable.getConstNoEscape_spec M H.thisConstTable
    (ConstTable.getConstName H.numEntries) 0 (by omega)
  have hrec : (t1.record r).isSome = true := by rw [(hcons hc).2]; rfl
  rw [← ConstTable.getConstOrdinal_eq M _ _ (numEntries_lt H)] at e
  refine ⟨r, t1, e, hrec, rfl, hx, fun _ => ⟨hM, (hcons hc).1, ?_⟩⟩
  intro p hp
  simp only [List.mem_cons] at hp
  rcases hp with rfl | hp
  · exact hrec
  · exact (hx.lookups p.2 (hn p hp)).2.2.2

theorem getStringLengthForRef_spec (M : Nat) (H : Heap) (cell : Cell) (hg : Good M H) :
    ∃ len H1, H.getStringLengthForRef M cell = some (len, H1) ∧ H1.thisStack = H.thisStack ∧
      Evolves M H H1 := by
  unfold getStringLengthForRef
  cases hget : H.nameMapGet cell with
  | none =>
    obtain ⟨cref, table, e, hrec, hev⟩ := getConstOrdinal_good M H cell hg
    obtain ⟨len, hl, _⟩ := ConstTable.lookups_of_record hrec
    simp only [e, hl, Option.map_some']
    exact ⟨_, _, rfl, rfl, hev⟩
  | some cref =>
    obtain ⟨p, hp, rfl⟩ := nameMapGet_mem H cell cref hget
    obtain ⟨len, hl, _⟩ := ConstTable.lookups_of_record (hg.2.2 p hp)
    simp only [hl, Option.map_some']
    exact ⟨_, _, rfl, rfl, Evolves.still M H⟩

end Heap

/-! ## The length measurement -/

namespace Heap

theorem pop_cons (H : Heap) (c : Cell) (s : List Cell) (h : H.thisStack = c :: s) :
    H.pop = some (c, H.withStack s) := by
  unfold pop
  rw [h]
  rfl

theorem trim_withStack (H : Heap) (s base : List Cell) :
    (H.withStack (s ++ base)).trim base.length = H.withStack base := by
  simp [trim, withStack]

/-- One round of the measuring loop on a cell that holds `item`: the cell
dereferences, its length is found, and the items it expands to are on the
workspace. -/
theorem getStringLength_token_spec (M : Nat) (cells : List Cell) (T0 : ConstTable) (H : Heap)
    (item : Item) (c : Cell) (hcells : H.cells = cells)
    (hT : ConstTable.Extends T0 H.thisConstTable)
    (hrep : item.represents cells T0 c = true) (hinv : item.vars = 0 ∨ Good M H) :
    ∃ cell len newTop H1, derefAt cells c = some cell ∧
      getStringLength.token M H cell = some (len, H1) ∧
      H1.thisStack = newTop ++ H.thisStack ∧ RepItems cells T0 newTop item.expand ∧
      Evolves M H H1 ∧
      (item.vars = 0 → H1 = H.withStack (newTop ++ H.thisStack) ∧
        len = (item.ownText T0).length) := by
  cases item with
  | term t =>
    cases t with
    | con cref =>
      obtain ⟨hd, hr⟩ := Term.represents_con hrep
      obtain ⟨len, hl, _, hlen⟩ := ConstTable.lookups_of_record hr
      have hl2 := (hT.lookups cref hr).1
      refine ⟨_, len, [], H, hd, ?_, rfl, List.Forall₂.nil, Evolves.still M H, fun _ => ⟨rfl, ?_⟩⟩
      · show (H.thisConstTable.getConstLength cref).map _ = _
        rw [hl2, hl]
        rfl
      · simp [Item.ownText, hlen]
    | var v =>
      obtain ⟨hd, k, rfl⟩ := Term.represents_var (T := T0) hrep
      have hg : Good M H := by
        rcases hinv with h0 | hg
        · simp [Item.vars, Term.vars] at h0
        · exact hg
      obtain ⟨len, H1, e, hs, hev⟩ := getStringLengthForRef_spec M H (.REF k) hg
      refine ⟨_, len, [], H1, hd, e, by simpa using hs, List.Forall₂.nil, hev, fun h0 => ?_⟩
      simp [Item.vars, Term.vars] at h0
    | str functor args =>
      obtain ⟨header, hd, hcell, harity, hpos, hargs⟩ := Term.represents_str hrep
      have hr := ConstTable.record_of_arity harity
      obtain ⟨len, hl, _, hlen⟩ := ConstTable.lookups_of_record hr
      have hx := hT.lookups functor hr
      have hlenArgs := Term.representsArgs_length _ _ hargs
      subst hcells
      have hpush := pushArgs_spec H header args.length functor.index hcell
        (by rw [← harity, ← hx.2.1]) hpos hlenArgs
      refine ⟨_, len + 1, argStack ((H.cells.drop header).take args.length),
        H.withStack (argStack ((H.cells.drop header).take args.length) ++ H.thisStack),
        hd, ?_, rfl, Term.representsArgs_items _ _ hargs, Evolves.to_withStack M H _,
        fun _ => ⟨rfl, ?_⟩⟩
      · show H.getStringLengthForStruct (.STR header) = _
        unfold getStringLengthForStruct
        simp only [toHeapRef, Cell.getValue, hpush]
        have e1 : (H.withStack (argStack ((H.cells.drop header).take args.length) ++
            H.thisStack)).thisConstTable = H.thisConstTable := rfl
        have e2 : (⟨functor.index⟩ : ConstRef) = functor := rfl
        simp only [e1, e2, hx.1, hx.2.1, hl, harity, hpos, if_true]
      · simp [Item.ownText, hlen]
  | comma =>
    have hc : c = .EXT .EXT_COMMA 0 := by simpa [Item.represents] using hrep
    subst hc
    exact ⟨_, 2, [], H, rfl, rfl, rfl, List.Forall₂.nil, Evolves.still M H, fun _ => ⟨rfl, rfl⟩⟩
  | close =>
    have hc : c = .EXT .EXT_END 0 := by simpa [Item.represents] using hrep
    subst hc
    exact ⟨_, 1, [], H, rfl, rfl, rfl, List.Forall₂.nil, Evolves.still M H, fun _ => ⟨rfl, rfl⟩⟩

theorem argItems_getLast : ∀ args : List Term, (argItems args).getLast? = some Item.close
  | [] => rfl
  | [_] => rfl
  | _ :: b :: rest => by
    have ih := argItems_getLast (b :: rest)
    rw [argItems, List.getLast?_cons_cons, List.getLast?_cons, ih]
    rfl

theorem endsClosed_cons (item : Item) (rest : List Item)
    (h : endsClosed (item :: rest) = true) :
    (item = Item.close ∧ rest = []) ∨ endsClosed (item.expand ++ rest) = true := by
  cases rest with
  | nil =>
    cases item with
    | term t =>
      cases t with
      | con cref => simp [endsClosed] at h
      | var v => simp [endsClosed] at h
      | str functor args =>
        right
        simp [endsClosed, Item.expand, argItems_getLast]
    | comma => simp [endsClosed] at h
    | close => exact Or.inl ⟨rfl, rfl⟩
  | cons b more =>
    right
    have e1 : (item :: b :: more).getLast? = (b :: more).getLast? := List.getLast?_cons_cons
    have e2 : (item.expand ++ b :: more).getLast? = (b :: more).getLast? := by
      obtain ⟨x, hx⟩ : ∃ x, (b :: more).getLast? = some x :=
        ⟨_, List.getLast?_eq_getLast _ (by simp)⟩
      rw [List.getLast?_append, hx]
      rfl
    unfold endsClosed at h ⊢
    rw [e2, ← e1]
    exact h

/-- The measuring loop on a workspace whose cells above `base` hold `items`.
There is a total `L` (the length of the text of the items when they have no
variables) such that, for every `maximum` and with enough fuel, the loop
returns with the workspace cut back to `base`; the result is `maximum` or
`len + L`, it is `len + L` when that is below `maximum`, it is at least
`maximum` otherwise, and it is at most `maximum` when the last item closes a
structure. -/
theorem getStringLength_loop_spec (M : Nat) (cells : List Cell) (T0 : ConstTable) :
    ∀ (n : Nat) (items : List Item), itemsNeed items ≤ n →
    ∀ (H : Heap) (top base : List Cell) (len : Nat), H.cells = cells →
      H.thisStack = top ++ base → RepItems cells T0 top items →
      ConstTable.Extends T0 H.thisConstTable → (itemsVars items = 0 ∨ Good M H) →
      ∃ L, (itemsVars items = 0 → L = (renderItems T0 items).length) ∧
        ∀ (maximum fuel : Nat), n < fuel →
          ∃ r H2, getStringLength.loop M base.length maximum fuel H len = some (r, H2) ∧
            Evolves M H H2 ∧ H2.thisStack = base ∧
            (itemsVars items = 0 → H2 = H.withStack base) ∧
            (r = maximum ∨ r = len + L) ∧ (len + L < maximum → r = len + L) ∧
            (maximum ≤ len + L → maximum ≤ r) ∧ (endsClosed items = true → r ≤ maximum) := by
  intro n
  induction n with
  | zero =>
    intro items hneed H top base len hcells hstack hrep hT hinv
    cases hrep with
    | nil =>
      refine ⟨0, fun _ => by simp [renderItems], fun maximum fuel hf => ?_⟩
      obtain ⟨fuel, rfl⟩ : ∃ k, fuel = k + 1 := ⟨fuel - 1, by omega⟩
      have hsz : H.getSize = base.length := by simp [getSize, hstack]
      refine ⟨len, H, ?_, Evolves.still M H, by simpa using hstack,
        fun _ => eq_withStack H base (by simpa using hstack), Or.inr rfl, fun _ => rfl,
        fun h => h, fun h => by simp [endsClosed] at h⟩
      simp [getStringLength.loop, hsz]
    | cons hitem hrest =>
      rename_i c item restTop restItems
      have := Item.need_expand item
      rw [itemsNeed_cons] at hneed
      omega
  | succ n ih =>
    intro items hneed H top base len hcells hstack hrep hT hinv
    cases hrep with
    | nil =>
      refine ⟨0, fun _ => by simp [renderItems], fun maximum fuel hf => ?_⟩
      obtain ⟨fuel, rfl⟩ : ∃ k, fuel = k + 1 := ⟨fuel - 1, by omega⟩
      have hsz : H.getSize = base.length := by simp [getSize, hstack]
      refine ⟨len, H, ?_, Evolves.still M H, by simpa using hstack,
        fun _ => eq_withStack H base (by simpa using hstack), Or.inr rfl, fun _ => rfl,
        fun h => h, fun h => by simp [endsClosed] at h⟩
      simp [getStringLength.loop, hsz]
    | cons hitem hrest =>
      rename_i c item restTop restItems
      rw [itemsNeed_cons] at hneed
      rw [itemsVars_cons] at hinv
      have hinvItem : item.vars = 0 ∨ Good M (H.withStack (restTop ++ base)) := by
        rcases hinv with h0 | hg
        · exact Or.inl (by omega)
        · exact Or.inr hg
      obtain ⟨cell, l, newTop, H1, hderef, htok, hstack1, hrepNew, hev1, hzero⟩ :=
        getStringLength_token_spec M cells T0 (H.withStack (restTop ++ base)) item c hcells hT
          hitem hinvItem
      have hexp := Item.need_expand item
      have hvexp := Item.vars_expand item
      have hneed1 : itemsNeed (item.expand ++ restItems) ≤ n := by
        rw [itemsNeed_append]
        omega
      have hinv1 : itemsVars (item.expand ++ restItems) = 0 ∨ Good M H1 := by
        rcases hinv with h0 | hg
        · left
          rw [itemsVars_append]
          omega
        · exact Or.inr (hev1.2.2 hg)
      have hstack1b : H1.thisStack = (newTop ++ restTop) ++ base := by
        rw [hstack1]
        simp [withStack]
      obtain ⟨L1, hL1, hloop⟩ := ih (item.expand ++ restItems) hneed1 H1 (newTop ++ restTop) base
        (len + l) (hev1.1.trans hcells) hstack1b (hrepNew.append hrest)
        (hT.chain hev1.2.1) hinv1
      refine ⟨l + L1, fun h0 => ?_, fun maximum fuel hf => ?_⟩
      · rw [itemsVars_cons] at h0
        have hz := hzero (by omega)
        rw [hz.2, hL1 (by rw [itemsVars_append]; omega), renderItems_cons, Item.render_eq,
          renderItems_append]
        simp only [List.length_append]
        omega
      · obtain ⟨fuel, rfl⟩ : ∃ k, fuel = k + 1 := ⟨fuel - 1, by omega⟩
        have hsz : base.length ≠ H.getSize := by
          simp only [getSize, hstack, List.length_append, List.length_cons]
          omega
        have hpop := pop_cons H c (restTop ++ base) (by simpa using hstack)
        have hd : (H.withStack (restTop ++ base)).deref c = some cell := by
          show derefAt (H.withStack (restTop ++ base)).cells c = _
          rw [show (H.withStack (restTop ++ base)).cells = cells from hcells]
          exact hderef
        rw [getStringLength.loop]
        simp only [hsz, ne_eq, not_false_eq_true, if_true, hpop, hd]
        by_cases hmax : len ≥ maximum
        · simp only [hmax, if_true]
          have htrim : (H.withStack (restTop ++ base)).trim base.length = H.withStack base :=
            trim_withStack H restTop base
          rw [htrim]
          exact ⟨maximum, H.withStack base, rfl, Evolves.to_withStack M H base, rfl, fun _ => rfl,
            Or.inl rfl, fun h => by omega, fun _ => le_refl _, fun _ => le_refl _⟩
        · simp only [hmax, if_false, htok]
          obtain ⟨r, H2, e, hev2, hs2, hz2, hr1, hr2, hr3, hr4⟩ := hloop maximum fuel (by omega)
          refine ⟨r, H2, e, Evolves.of_withStack _ (hev1.next hev2), hs2, fun h0 => ?_, ?_, ?_, ?_,
            fun hc => ?_⟩
          · rw [itemsVars_cons] at h0
            have hz := hzero (by omega)
            rw [hz2 (by rw [itemsVars_append]; omega), hz.1]
            rfl
          · rcases hr1 with h | h
            · exact Or.inl h
            · exact Or.inr (by omega)
          · intro h
            have := hr2 (by omega)
            omega
          · intro h
            exact hr3 (by omega)
          · rcases endsClosed_cons item restItems hc with ⟨hi, hre⟩ | hne
            · subst hi
              subst hre
              have hl1 : l = 1 := (hzero rfl).2
              have hL0 : L1 = 0 := by
                rw [hL1 (by simp [Item.expand, itemsVars])]
                simp [Item.expand, renderItems]
              rcases hr1 with h | h
              · omega
              · omega
            · exact hr4 hne

end Heap

/-! ## The indent depth -/

namespace PrintState

theorem printIndent_thisIndent (s : PrintState) (out : List Char) :
    (s.printIndent out).1.thisIndent = s.thisIndent := rfl

theorem newLine_thisIndent (s : PrintState) (out : List Char) :
    (s.newLine out).1.thisIndent = s.thisIndent := rfl

end PrintState

namespace Heap

end Heap

namespace Term

end Term

namespace PrintState

end PrintState

namespace Heap

/-- The length measurement of a cell that holds the term `t`. -/
theorem getStringLength_spec (M : Nat) (T0 : ConstTable) (H : Heap) (t : Term) (cell : Cell)
    (hT : ConstTable.Extends T0 H.thisConstTable)
    (hrep : t.represents H.cells T0 cell = true) (hinv : t.vars = 0 ∨ Good M H) :
    ∃ L, (t.vars = 0 → L = (t.render T0).length) ∧
      ∀ (maximum fuel : Nat), t.size < fuel →
        ∃ r H2, H.getStringLength M fuel cell maximum = some (r, H2) ∧ Evolves M H H2 ∧
          H2.thisStack = H.thisStack ∧ (t.vars = 0 → H2 = H) ∧
          (r = maximum ∨ r = L) ∧ (L < maximum → r = L) ∧ (maximum ≤ L → maximum ≤ r) ∧
          (endsClosed [Item.term t] = true → r ≤ maximum) := by
  have hneed : itemsNeed [Item.term t] ≤ t.size := by simp [itemsNeed, Item.need]
  have hvars : itemsVars [Item.term t] = t.vars := by simp [itemsVars, Item.vars]
  have hrender : renderItems T0 [Item.term t] = t.render T0 := by
    simp [renderItems, Item.render]
  obtain ⟨L, hL, hloop⟩ := getStringLength_loop_spec M H.cells T0 t.size [Item.term t] hneed
    (H.push cell) [cell] H.thisStack 0 rfl rfl (List.Forall₂.cons hrep List.Forall₂.nil) hT
    (by rw [hvars]; exact hinv)
  rw [hvars, hrender] at hL
  refine ⟨L, hL, fun maximum fuel hf => ?_⟩
  obtain ⟨r, H2, e, hev, hs, hz, h1, h2, h3, h4⟩ := hloop maximum fuel hf
  rw [hvars] at hz
  refine ⟨r, H2, e, Evolves.of_withStack (cell :: H.thisStack) hev, hs, fun h0 => ?_, ?_, ?_, ?_,
    h4⟩
  · rw [hz h0]
    rfl
  · simpa using h1
  · simpa using h2
  · simpa using h3

end Heap

namespace Heap

end Heap

/-! ## Lemmas on name lengths and on the scheduled cells -/

namespace ConstTable

theorem getConstName_length_pos (k : Nat) (hk : 0 < k) :
    (getConstName k).length = (Nat.digits 26 k).length := by
  rw [getConstName_pos k hk]
  split <;> simp [msd]

theorem getConstName_length_mono (m n : Nat) (h : m ≤ n) :
    (getConstName m).length ≤ (getConstName n).length := by
  rcases Nat.eq_zero_or_pos n with rfl | hn
  · have : m = 0 := by omega
    subst this
    exact le_refl _
  · rw [getConstName_length_pos n hn]
    rcases Nat.eq_zero_or_pos m with rfl | hm
    · have hd : Nat.digits 26 n ≠ [] := by
        rw [Nat.digits_def' (by norm_num) hn]
        simp
      have := List.length_pos.mpr hd
      show 1 ≤ _
      omega
    · rw [getConstName_length_pos m hm]
      exact Nat.le_digits_len_le 26 m n h

theorem backslashed_letters (n : Nat) :
    backslashed (List.replicate n 'A') = List.replicate n 'A' := by
  induction n with
  | zero => rfl
  | succ n ih =>
    have h : ¬ ('A' = BACKSLASH ∨ 'A' = QUOTE) := by decide
    simp [List.replicate_succ, backslashed, h, ih]

theorem escapeName_letters (n : Nat) :
    escapeName (List.replicate (n + 1) 'A') = [QUOTE] ++ List.replicate (n + 1) 'A' ++ [QUOTE] := by
  rw [escapeName_eq_quotingRule]
  have h : needsQuotes (List.replicate (n + 1) 'A') = true := by
    simp [needsQuotes, List.replicate_succ]
  rw [quotingRule, if_pos h, backslashed_letters]

end ConstTable

theorem argStack_length : ∀ cs : List Cell, cs ≠ [] → (argStack cs).length = 2 * cs.length
  | [], h => absurd rfl h
  | [_], _ => rfl
  | _ :: b :: rest, _ => by
    have ih := argStack_length (b :: rest) (by simp)
    simp only [argStack, List.length_cons] at ih ⊢
    omega

theorem argStack_even : ∀ (cs : List Cell) (j : Nat), j < cs.length →
    (argStack cs)[2 * j]? = cs[j]?
  | [], _, h => by simp at h
  | [a], j, h => by
    have : j = 0 := by simpa using h
    subst this
    rfl
  | a :: b :: rest, 0, _ => rfl
  | a :: b :: rest, j + 1, h => by
    have ih := argStack_even (b :: rest) j (by simpa using h)
    have e : 2 * (j + 1) = 2 * j + 1 + 1 := by omega
    rw [argStack, e, List.getElem?_cons_succ, List.getElem?_cons_succ, ih,
      List.getElem?_cons_succ]

theorem argStack_odd : ∀ (cs : List Cell) (j : Nat), j < cs.length →
    (argStack cs)[2 * j + 1]? =
      some (if j + 1 < cs.length then Cell.EXT .EXT_COMMA 0 else Cell.EXT .EXT_END 0)
  | [], _, h => by simp at h
  | [a], j, h => by
    have : j = 0 := by simpa using h
    subst this
    rfl
  | a :: b :: rest, 0, _ => by simp [argStack]
  | a :: b :: rest, j + 1, h => by
    have ih := argStack_odd (b :: rest) j (by simpa using h)
    have e : 2 * (j + 1) + 1 = (2 * j + 1) + 1 + 1 := by omega
    rw [argStack, e, List.getElem?_cons_succ, List.getElem?_cons_succ, ih]
    simp only [List.length_cons]
    congr 1
    by_cases hc : j + 1 < rest.length + 1
    · rw [if_pos hc, if_pos (by omega)]
    · rw [if_neg hc, if_neg (by omega)]

/-! ## Lemmas on the parser -/

namespace Heap

theorem reserved_not_space (c : Char)
    (hc : c ∈ ['[', ']', '(', ')', ',', '.', BACKSLASH]) :
    isspace c = false ∧ ConstTable.isReserved c = true ∧ (c == QUOTE) = false := by
  simp only [List.mem_cons, List.mem_singleton, List.not_mem_nil, or_false] at hc
  rcases hc with rfl | rfl | rfl | rfl | rfl | rfl | rfl <;> decide

theorem dropWhile_space (ws rest : List Char) (c : Char) (hws : ∀ w ∈ ws, isspace w = true)
    (hc : isspace c = false) : (ws ++ c :: rest).dropWhile isspace = c :: rest := by
  induction ws with
  | nil => simp [List.dropWhile, hc]
  | cons w more ih =>
    have hw : isspace w = true := hws w (by simp)
    simp only [List.cons_append, List.dropWhile, hw]
    exact ih (fun x hx => hws x (by simp [hx]))

theorem parseSkipWhite_loop_spec (skipws : Bool) (c : Char) (rest : List Char)
    (hc : isspace c = false) :
    ∀ (ws : List Char) (fuel : Nat) (loc : LocationTracker) (ch : Char),
      (∀ w ∈ ws, isspace w = true) → ws.length < fuel →
      ∃ loc2, parseSkipWhite.loop fuel ⟨ws ++ c :: rest, skipws⟩ loc ch =
        some (c, ⟨rest, skipws⟩, loc2) := by
  cases skipws with
  | true =>
    intro ws fuel loc ch hws hf
    obtain ⟨fuel, rfl⟩ : ∃ k, fuel = k + 1 := ⟨fuel - 1, by omega⟩
    refine ⟨loc.advance c, ?_⟩
    simp [parseSkipWhite.loop, IStream.extract, dropWhile_space ws rest c hws hc, hc]
  | false =>
    intro ws
    induction ws with
    | nil =>
      intro fuel loc ch _ hf
      obtain ⟨fuel, rfl⟩ : ∃ k, fuel = k + 1 := ⟨fuel - 1, by omega⟩
      refine ⟨loc.advance c, ?_⟩
      simp [parseSkipWhite.loop, IStream.extract, hc]
    | cons w more ih =>
      intro fuel loc ch hws hf
      obtain ⟨fuel, rfl⟩ : ∃ k, fuel = k + 1 := ⟨fuel - 1, by omega⟩
      have hw : isspace w = true := hws w (by simp)
      obtain ⟨loc2, e⟩ := ih fuel (loc.advance w) w (fun x hx => hws x (by simp [hx]))
        (by simpa using hf)
      refine ⟨loc2, ?_⟩
      simp only [List.cons_append, parseSkipWhite.loop, IStream.extract, Bool.false_eq_true,
        if_false, hw, if_true]
      exact e

end Heap

/-! ## Lemmas on display names -/

namespace PrintState

end PrintState

namespace Heap

theorem nameMapGet_cons (H : Heap) (T : ConstTable) (v u : Cell) (cref : ConstRef) :
    nameMapGet { H with thisConstTable := T, thisNameMap := (v, cref) :: H.thisNameMap } u =
      if v = u then some cref else H.nameMapGet u := by
  unfold nameMapGet
  by_cases h : v = u
  · simp [List.find?_cons, h]
  · simp [List.find?_cons, h]

/-- What naming one cell does in a good state. -/
theorem named_spec (M : Nat) (H : Heap) (v : Cell) (hg : Good M H) :
    (∀ cref, H.nameMapGet v = some cref →
        H.getRefName M v = some (cref, H) ∧ named M H v = H) ∧
    (H.nameMapGet v = none →
        ∃ cref table, H.getRefName M v = some (cref,
            { H with thisConstTable := table, thisNameMap := (v, cref) :: H.thisNameMap }) ∧
          named M H v =
            { H with thisConstTable := table, thisNameMap := (v, cref) :: H.thisNameMap } ∧
          ConstTable.Extends H.thisConstTable table ∧
          table.record cref = some ⟨ConstTable.getConstName H.numEntries, 0⟩) ∧
    Good M (named M H v) ∧ Evolves M H (named M H v) ∧
    (named M H v).thisStack = H.thisStack := by
  have hfound : ∀ cref, H.nameMapGet v = some cref →
      H.getRefName M v = some (cref, H) ∧ named M H v = H := by
    intro cref h
    simp [named, getRefName, h]
  have hnew : H.nameMapGet v = none →
      ∃ cref table, H.getRefName M v = some (cref,
          { H with thisConstTable := table, thisNameMap := (v, cref) :: H.thisNameMap }) ∧
        named M H v =
          { H with thisConstTable := table, thisNameMap := (v, cref) :: H.thisNameMap } ∧
        ConstTable.Extends H.thisConstTable table ∧
        table.record cref = some ⟨ConstTable.getConstName H.numEntries, 0⟩ := by
    intro h
    obtain ⟨hM, hc, _⟩ := hg
    have hl := ConstTable.getConstName_length_le H.numEntries (numEntries_lt H)
    obtain ⟨r, t1, e, _, _, hx, _, hcons⟩ := ConstTable.getConstNoEscape_spec M H.thisConstTable
      (ConstTable.getConstName H.numEntries) 0 (by omega)
    have e2 : H.thisConstTable.getConstOrdinal M H.numEntries = some (r, t1) := by
      rw [ConstTable.getConstOrdinal_eq M _ _ (numEntries_lt H)]
      exact e
    refine ⟨r, t1, ?_, ?_, hx, (hcons hc).2⟩
    · simp [getRefName, h, e2]
    · simp [named, getRefName, h, e2]
  refine ⟨hfound, hnew, ?_⟩
  cases hget : H.nameMapGet v with
  | some cref =>
    rw [(hfound cref hget).2]
    exact ⟨hg, Evolves.still M H, rfl⟩
  | none =>
    obtain ⟨cref, table, _, e, _, _⟩ := hnew hget
    obtain ⟨cref2, table2, e2, hrec2, hev⟩ := getConstOrdinal_good M H v hg
    have e3 : named M H v =
        { H with thisConstTable := table2, thisNameMap := (v, cref2) :: H.thisNameMap } := by
      simp [named, getRefName, hget, e2]
    rw [e3]
    exact ⟨hev.2.2 hg, hev, rfl⟩

theorem named_withStack (M : Nat) (H : Heap) (s : List Cell) (v : Cell) :
    named M (H.withStack s) v = (named M H v).withStack s := by
  unfold named getRefName
  have e1 : (H.withStack s).nameMapGet v = H.nameMapGet v := rfl
  have e2 : (H.withStack s).numEntries = H.numEntries := rfl
  have e3 : (H.withStack s).thisConstTable = H.thisConstTable := rfl
  rw [e1, e2, e3]
  cases H.nameMapGet v with
  | some cref => rfl
  | none =>
    cases H.thisConstTable.getConstOrdinal M H.numEntries with
    | none => rfl
    | some r => rfl

theorem namedAll_withStack (M : Nat) (vs : List Cell) (H : Heap) (s : List Cell) :
    namedAll M (H.withStack s) vs = (namedAll M H vs).withStack s := by
  induction vs generalizing H with
  | nil => rfl
  | cons v rest ih =>
    simp only [namedAll, List.foldl_cons] at ih ⊢
    rw [named_withStack, ih]

theorem namedAll_append (M : Nat) (H : Heap) (l1 l2 : List Cell) :
    namedAll M H (l1 ++ l2) = namedAll M (namedAll M H l1) l2 := by
  simp [namedAll, List.foldl_append]

theorem namedAll_cons (M : Nat) (H : Heap) (v : Cell) (rest : List Cell) :
    namedAll M H (v :: rest) = namedAll M (named M H v) rest := rfl

theorem namedAll_good (M : Nat) (vs : List Cell) (H : Heap) (hg : Good M H) :
    Good M (namedAll M H vs) ∧ Evolves M H (namedAll M H vs) ∧
      (namedAll M H vs).thisStack = H.thisStack := by
  induction vs generalizing H with
  | nil => exact ⟨hg, Evolves.still M H, rfl⟩
  | cons v rest ih =>
    obtain ⟨_, _, hg1, hev1, hs1⟩ := named_spec M H v hg
    obtain ⟨hg2, hev2, hs2⟩ := ih (named M H v) hg1
    rw [namedAll_cons]
    exact ⟨hg2, hev1.next hev2, hs2.trans hs1⟩

theorem nameMapGet_named_stable (M : Nat) (H : Heap) (v u : Cell) (c : ConstRef)
    (hg : Good M H) (h : H.nameMapGet u = some c) : (named M H v).nameMapGet u = some c := by
  obtain ⟨hfound, hnew, _⟩ := named_spec M H v hg
  cases hget : H.nameMapGet v with
  | some cref => rw [(hfound cref hget).2]; exact h
  | none =>
    obtain ⟨cref, table, _, e, _, _⟩ := hnew hget
    rw [e, nameMapGet_cons]
    have hne : ¬ v = u := by
      rintro rfl
      rw [hget] at h
      cases h
    rw [if_neg hne]
    exact h

theorem nameMapGet_namedAll_stable (M : Nat) (vs : List Cell) (H : Heap) (u : Cell)
    (c : ConstRef) (hg : Good M H) (h : H.nameMapGet u = some c) :
    (namedAll M H vs).nameMapGet u = some c := by
  induction vs generalizing H with
  | nil => exact h
  | cons v rest ih =>
    rw [namedAll_cons]
    exact ih (named M H v) (named_spec M H v hg).2.2.1 (nameMapGet_named_stable M H v u c hg h)

end Heap

theorem mem_firstSeen (vs seen : List Cell) (u : Cell) (h : u ∈ seen ∨ u ∈ vs) :
    u ∈ firstSeen seen vs := by
  induction vs generalizing seen with
  | nil =>
    rcases h with h | h
    · exact h
    · simp at h
  | cons v rest ih =>
    rw [firstSeen]
    apply ih
    by_cases hv : v ∈ seen
    · rw [if_pos hv]
      rcases h with h | h
      · exact Or.inl h
      · simp only [List.mem_cons] at h
        rcases h with rfl | h
        · exact Or.inl hv
        · exact Or.inr h
    · rw [if_neg hv]
      rcases h with h | h
      · exact Or.inl (by simp [h])
      · simp only [List.mem_cons] at h
        rcases h with rfl | h
        · exact Or.inl (by simp)
        · exact Or.inr h

namespace Heap

theorem getStringLengthForRef_named (M : Nat) (H : Heap) (v : Cell) (len : Nat) (H1 : Heap)
    (h : H.getStringLengthForRef M v = some (len, H1)) : H1 = named M H v := by
  unfold getStringLengthForRef at h
  unfold named getRefName
  cases hget : H.nameMapGet v with
  | some cref =>
    simp only [hget] at h ⊢
    cases hl : H.thisConstTable.getConstLength cref with
    | none => simp [hl] at h
    | some l =>
      simp only [hl, Option.map_some', Option.some.injEq, Prod.mk.injEq] at h
      exact h.2.symm
  | none =>
    simp only [hget] at h ⊢
    cases ho : H.thisConstTable.getConstOrdinal M H.numEntries with
    | none => simp [ho] at h
    | some r =>
      obtain ⟨cref, table⟩ := r
      simp only [ho] at h ⊢
      cases hl : table.getConstLength cref with
      | none => simp [hl] at h
      | some l =>
        simp only [hl, Option.map_some', Option.some.injEq, Prod.mk.injEq] at h
        exact h.2.symm

end Heap

theorem itemsVarList_cons (item : Item) (items : List Item) :
    itemsVarList (item :: items) = item.varList ++ itemsVarList items := by
  simp [itemsVarList]

theorem itemsVarList_append (l1 l2 : List Item) :
    itemsVarList (l1 ++ l2) = itemsVarList l1 ++ itemsVarList l2 := by
  simp [itemsVarList]

theorem renderItemsNamed_cons (T : ConstTable) (names : Cell → List Char) (item : Item)
    (items : List Item) :
    renderItemsNamed T names (item :: items) =
      item.renderNamed T names ++ renderItemsNamed T names items := by
  simp [renderItemsNamed]

theorem renderItemsNamed_append (T : ConstTable) (names : Cell → List Char)
    (l1 l2 : List Item) :
    renderItemsNamed T names (l1 ++ l2) =
      renderItemsNamed T names l1 ++ renderItemsNamed T names l2 := by
  simp [renderItemsNamed]

namespace Term

theorem itemsVarList_argItems : ∀ args : List Term, itemsVarList (argItems args) = varListArgs args
  | [] => by simp [itemsVarList, argItems, varListArgs, Item.varList]
  | [a] => by simp [itemsVarList, argItems, varListArgs, Item.varList]
  | a :: b :: rest => by
    have ih := itemsVarList_argItems (b :: rest)
    simp only [itemsVarList, argItems, List.map_cons, List.flatten_cons, Item.varList,
      List.nil_append] at ih ⊢
    rw [varListArgs, ih]

theorem renderItemsNamed_argItems (T : ConstTable) (names : Cell → List Char) :
    ∀ args : List Term,
      renderItemsNamed T names (argItems args) = renderNamedArgs T names args ++ [')']
  | [] => by simp [renderItemsNamed, argItems, renderNamedArgs, Item.renderNamed]
  | [a] => by simp [renderItemsNamed, argItems, renderNamedArgs, Item.renderNamed]
  | a :: b :: rest => by
    have ih := renderItemsNamed_argItems T names (b :: rest)
    simp only [renderItemsNamed, argItems, List.map_cons, List.flatten_cons,
      Item.renderNamed] at ih ⊢
    rw [renderNamedArgs, ih]
    simp

end Term

namespace Item

theorem varList_eq (item : Item) :
    item.varList = item.ownVars ++ itemsVarList item.expand := by
  cases item with
  | term t =>
    cases t with
    | con cref => simp [varList, ownVars, expand, itemsVarList, Term.varList]
    | var v => simp [varList, ownVars, expand, itemsVarList, Term.varList]
    | str functor args =>
      simp [varList, ownVars, expand, Term.varList, Term.itemsVarList_argItems]
  | comma => simp [varList, ownVars, expand, itemsVarList]
  | close => simp [varList, ownVars, expand, itemsVarList]

theorem renderNamed_eq (T : ConstTable) (names : Cell → List Char) (item : Item) :
    item.renderNamed T names = item.ownTextNamed T names ++ renderItemsNamed T names item.expand := by
  cases item with
  | term t =>
    cases t with
    | con cref => simp [renderNamed, ownTextNamed, expand, renderItemsNamed, Term.renderNamed]
    | var v => simp [renderNamed, ownTextNamed, expand, renderItemsNamed, Term.renderNamed]
    | str functor args =>
      simp [renderNamed, ownTextNamed, expand, Term.renderNamed,
        Term.renderItemsNamed_argItems]
  | comma => simp [renderNamed, ownTextNamed, expand, renderItemsNamed]
  | close => simp [renderNamed, ownTextNamed, expand, renderItemsNamed]

end Item

/-! ## The display names a traversal makes -/

namespace Heap

theorem displayName_withStack (H : Heap) (s : List Cell) :
    (H.withStack s).displayName = H.displayName := rfl

theorem namedAll_self_stack (M : Nat) (vs : List Cell) (H : Heap) (hg : Good M H) :
    (namedAll M H vs).withStack H.thisStack = namedAll M H vs :=
  (eq_withStack _ _ (namedAll_good M vs H hg).2.2).symm

theorem displayName_namedAll_stable (M : Nat) (vs : List Cell) (H : Heap) (u : Cell)
    (c : ConstRef) (hg : Good M H) (h : H.nameMapGet u = some c) :
    (namedAll M H vs).displayName u = H.displayName u := by
  simp only [displayName, nameMapGet_namedAll_stable M vs H u c hg h, h]
  obtain ⟨p, hp, rfl⟩ := nameMapGet_mem H u c h
  exact ConstTable.name_extends (namedAll_good M vs H hg).2.1.2.1 p.2 (hg.2.2 p hp)

theorem getStringLengthForRef_len (M : Nat) (H : Heap) (v : Cell) (len : Nat) (H1 : Heap)
    (h : H.getStringLengthForRef M v = some (len, H1)) :
    ∃ cref, H1.nameMapGet v = some cref ∧ H1.thisConstTable.getConstLength cref = some len := by
  unfold getStringLengthForRef at h
  cases hget : H.nameMapGet v with
  | some cref =>
    simp only [hget] at h
    cases hl : H.thisConstTable.getConstLength cref with
    | none => simp [hl] at h
    | some l =>
      simp only [hl, Option.map_some', Option.some.injEq, Prod.mk.injEq] at h
      obtain ⟨h1, h2⟩ := h
      subst h1
      subst h2
      exact ⟨cref, hget, hl⟩
  | none =>
    simp only [hget] at h
    cases ho : H.thisConstTable.getConstOrdinal M H.numEntries with
    | none => simp [ho] at h
    | some r =>
      obtain ⟨cref, table⟩ := r
      simp only [ho] at h
      cases hl : table.getConstLength cref with
      | none => simp [hl] at h
      | some l =>
        simp only [hl, Option.map_some', Option.some.injEq, Prod.mk.injEq] at h
        obtain ⟨h1, h2⟩ := h
        subst h1
        subst h2
        exact ⟨cref, by rw [nameMapGet_cons, if_pos rfl], hl⟩

/-- One round of the measuring loop on a cell that holds `item`, with the heap
it leaves: the display names of the item's own variable are made, and the
length found is the length of the item's own text. -/
theorem getStringLength_token_names (M : Nat) (cells : List Cell) (T0 : ConstTable) (H : Heap)
    (item : Item) (c : Cell) (hcells : H.cells = cells)
    (hT : ConstTable.Extends T0 H.thisConstTable)
    (hrep : item.represents cells T0 c = true) (hg : Good M H) :
    ∃ cell len newTop, derefAt cells c = some cell ∧
      getStringLength.token M H cell =
        some (len, (namedAll M H item.ownVars).withStack (newTop ++ H.thisStack)) ∧
      RepItems cells T0 newTop item.expand ∧
      ∀ vs, len = (item.ownTextNamed T0
        (namedAll M (namedAll M H item.ownVars) vs).displayName).length := by
  cases item with
  | term t =>
    cases t with
    | con cref =>
      obtain ⟨hd, hr⟩ := Term.represents_con hrep
      obtain ⟨len, hl, _, hlen⟩ := ConstTable.lookups_of_record hr
      have hl2 := (hT.lookups cref hr).1
      refine ⟨_, len, [], hd, ?_, List.Forall₂.nil, fun _ => hlen.symm⟩
      show (H.thisConstTable.getConstLength cref).map _ = _
      rw [hl2, hl]
      rfl
    | var v =>
      obtain ⟨hd, k, rfl⟩ := Term.represents_var (T := T0) hrep
      obtain ⟨len, H1, e, hs, hev⟩ := getStringLengthForRef_spec M H (.REF k) hg
      obtain ⟨cref, hbound, hclen⟩ := getStringLengthForRef_len M H (.REF k) len H1 e
      have hg1 : Good M H1 := hev.2.2 hg
      have hH1 := getStringLengthForRef_named M H (.REF k) len H1 e
      subst hH1
      refine ⟨_, len, [], hd, ?_, List.Forall₂.nil, fun vs => ?_⟩
      · show H.getStringLengthForRef M (.REF k) = _
        rw [e]
        have hw : (namedAll M H (Item.ownVars (.term (.var (.REF k))))).withStack
            ([] ++ H.thisStack) = named M H (.REF k) := (eq_withStack _ _ hs).symm
        rw [hw]
      · obtain ⟨p, hp, hp2⟩ := nameMapGet_mem _ (.REF k) cref hbound
        obtain ⟨l, hl, _, hlen⟩ := ConstTable.lookups_of_record (hg1.2.2 p hp)
        rw [hp2] at hl hlen
        rw [hclen] at hl
        cases hl
        show len = ((namedAll M (named M H (.REF k)) vs).displayName (.REF k)).length
        rw [displayName_namedAll_stable M vs _ (.REF k) cref hg1 hbound]
        simp only [displayName, hbound]
        exact hlen.symm
    | str functor args =>
      obtain ⟨header, hd, hcell, harity, hpos, hargs⟩ := Term.represents_str hrep
      have hr := ConstTable.record_of_arity harity
      obtain ⟨len, hl, _, hlen⟩ := ConstTable.lookups_of_record hr
      have hx := hT.lookups functor hr
      have hlenArgs := Term.representsArgs_length _ _ hargs
      subst hcells
      have hpush := pushArgs_spec H header args.length functor.index hcell
        (by rw [← harity, ← hx.2.1]) hpos hlenArgs
      refine ⟨_, len + 1, argStack ((H.cells.drop header).take args.length), hd, ?_,
        Term.representsArgs_items _ _ hargs, fun _ => by simp [Item.ownTextNamed, hlen]⟩
      show H.getStringLengthForStruct (.STR header) = _
      unfold getStringLengthForStruct
      simp only [toHeapRef, Cell.getValue, hpush]
      have e1 : (H.withStack (argStack ((H.cells.drop header).take args.length) ++
          H.thisStack)).thisConstTable = H.thisConstTable := rfl
      have e2 : (⟨functor.index⟩ : ConstRef) = functor := rfl
      simp only [e1, e2, hx.1, hx.2.1, hl, harity, hpos, if_true]
      rfl
  | comma =>
    have hc : c = .EXT .EXT_COMMA 0 := by simpa [Item.represents] using hrep
    subst hc
    exact ⟨_, 2, [], rfl, rfl, List.Forall₂.nil, fun _ => rfl⟩
  | close =>
    have hc : c = .EXT .EXT_END 0 := by simpa [Item.represents] using hrep
    subst hc
    exact ⟨_, 1, [], rfl, rfl, List.Forall₂.nil, fun _ => rfl⟩

end Heap

namespace Heap

end Heap

/-! ## The text with display names -/

namespace ConstTable

end ConstTable

namespace Term

mutual
theorem renderNamed_congr (T : ConstTable) (f g : Cell → List Char) :
    ∀ t : Term, (∀ v ∈ t.varList, f v = g v) → t.renderNamed T f = t.renderNamed T g
  | .con _, _ => by simp [renderNamed]
  | .var v, h => by
    simp only [renderNamed]
    exact h v (by simp [varList])
  | .str functor args, h => by
    simp only [renderNamed]
    rw [renderNamedArgs_congr T f g args (by simpa [varList] using h)]
theorem renderNamedArgs_congr (T : ConstTable) (f g : Cell → List Char) :
    ∀ args : List Term, (∀ v ∈ varListArgs args, f v = g v) →
      renderNamedArgs T f args = renderNamedArgs T g args
  | [], _ => by simp [renderNamedArgs]
  | [a], h => by
    simp only [renderNamedArgs]
    exact renderNamed_congr T f g a (fun v hv => h v (by simp [varListArgs, hv]))
  | a :: b :: rest, h => by
    simp only [renderNamedArgs]
    rw [renderNamed_congr T f g a (fun v hv => h v (by simp [varListArgs, hv])),
      renderNamedArgs_congr T f g (b :: rest) (fun v hv => h v (by
        rw [varListArgs]
        exact List.mem_append_right _ hv))]
end

end Term

/-! ## The full length of a term -/

namespace Term

mutual
theorem renderNamed_ground (T : ConstTable) (f : Cell → List Char) :
    ∀ t : Term, t.vars = 0 → t.renderNamed T f = t.render T
  | .con _, _ => by simp [renderNamed, render]
  | .var v, h => by simp [vars] at h
  | .str functor args, h => by
    simp only [renderNamed, render]
    rw [renderNamedArgs_ground T f args (by simpa [vars] using h)]
theorem renderNamedArgs_ground (T : ConstTable) (f : Cell → List Char) :
    ∀ args : List Term, varsArgs args = 0 → renderNamedArgs T f args = renderArgs T args
  | [], _ => by simp [renderNamedArgs, renderArgs]
  | [a], h => by
    simp only [renderNamedArgs, renderArgs]
    exact renderNamed_ground T f a (by simp [varsArgs] at h; omega)
  | a :: b :: rest, h => by
    simp only [renderNamedArgs, renderArgs]
    rw [varsArgs] at h
    rw [renderNamed_ground T f a (by omega), renderNamedArgs_ground T f (b :: rest) (by omega)]
end

end Term

namespace Heap

/-- The measuring loop with a `maximum` above the total: it returns the length
so far plus the length of the text of the items, their variables written by
the display names of the heap it leaves. -/
theorem getStringLength_loop_full (M : Nat) (cells : List Cell) (T0 : ConstTable) :
    ∀ (n : Nat) (items : List Item), itemsNeed items ≤ n →
    ∀ (H : Heap) (top base : List Cell) (len : Nat), H.cells = cells →
      H.thisStack = top ++ base → RepItems cells T0 top items →
      ConstTable.Extends T0 H.thisConstTable → Good M H →
      ∀ (maximum fuel : Nat), n < fuel →
        len + (renderItemsNamed T0 (namedAll M H (itemsVarList items)).displayName
          items).length < maximum →
        getStringLength.loop M base.length maximum fuel H len =
          some (len + (renderItemsNamed T0 (namedAll M H (itemsVarList items)).displayName
            items).length, (namedAll M H (itemsVarList items)).withStack base) := by
  intro n
  induction n with
  | zero =>
    intro items hneed H top base len hcells hstack hrep hT hg maximum fuel hf hmax
    cases hrep with
    | nil =>
      obtain ⟨fuel, rfl⟩ : ∃ k, fuel = k + 1 := ⟨fuel - 1, by omega⟩
      have hsz : H.getSize = base.length := by simp [getSize, hstack]
      have hH : (namedAll M H (itemsVarList [])).withStack base = H :=
        (eq_withStack H base (by simpa using hstack)).symm
      rw [hH]
      simp [getStringLength.loop, hsz, renderItemsNamed]
    | cons hitem hrest =>
      rename_i c item restTop restItems
      have := Item.need_expand item
      rw [itemsNeed_cons] at hneed
      omega
  | succ n ih =>
    intro items hneed H top base len hcells hstack hrep hT hg maximum fuel hf hmax
    cases hrep with
    | nil =>
      obtain ⟨fuel, rfl⟩ : ∃ k, fuel = k + 1 := ⟨fuel - 1, by omega⟩
      have hsz : H.getSize = base.length := by simp [getSize, hstack]
      have hH : (namedAll M H (itemsVarList [])).withStack base = H :=
        (eq_withStack H base (by simpa using hstack)).symm
      rw [hH]
      simp [getStringLength.loop, hsz, renderItemsNamed]
    | cons hitem hrest =>
      rename_i c item restTop restItems
      rw [itemsNeed_cons] at hneed
      obtain ⟨cell, l, newTop, hderef, htok, hrepNew, hlen⟩ :=
        getStringLength_token_names M cells T0 (H.withStack (restTop ++ base)) item c hcells hT
          hitem hg
      have hH1 : (namedAll M (H.withStack (restTop ++ base)) item.ownVars).withStack
          (newTop ++ (H.withStack (restTop ++ base)).thisStack) =
          (namedAll M H item.ownVars).withStack ((newTop ++ restTop) ++ base) := by
        rw [namedAll_withStack, withStack_withStack]
        show (namedAll M H item.ownVars).withStack (newTop ++ (restTop ++ base)) = _
        rw [List.append_assoc]
      rw [hH1] at htok
      obtain ⟨hg1, hev1, _⟩ := namedAll_good M item.ownVars H hg
      have hexp := Item.need_expand item
      have hneed1 : itemsNeed (item.expand ++ restItems) ≤ n := by
        rw [itemsNeed_append]
        omega
      have hall : namedAll M (namedAll M H item.ownVars)
          (itemsVarList (item.expand ++ restItems)) =
          namedAll M H (itemsVarList (item :: restItems)) := by
        rw [← namedAll_append, itemsVarList_cons, Item.varList_eq, List.append_assoc,
          ← itemsVarList_append]
      have hl := hlen (itemsVarList (item.expand ++ restItems))
      simp only [namedAll_withStack, displayName_withStack] at hl
      rw [hall] at hl
      have htext : (renderItemsNamed T0 (namedAll M H (itemsVarList (item :: restItems))).displayName
          (item :: restItems)).length = l +
          (renderItemsNamed T0 (namedAll M H (itemsVarList (item :: restItems))).displayName
            (item.expand ++ restItems)).length := by
        simp only [renderItemsNamed_cons, Item.renderNamed_eq, renderItemsNamed_append,
          List.length_append]
        omega
      obtain ⟨fuel, rfl⟩ : ∃ k, fuel = k + 1 := ⟨fuel - 1, by omega⟩
      have hsz : base.length ≠ H.getSize := by
        simp only [getSize, hstack, List.length_append, List.length_cons]
        omega
      have hpop := pop_cons H c (restTop ++ base) (by simpa using hstack)
      have hd : (H.withStack (restTop ++ base)).deref c = some cell := by
        show derefAt (H.withStack (restTop ++ base)).cells c = _
        rw [show (H.withStack (restTop ++ base)).cells = cells from hcells]
        exact hderef
      have hnot : ¬ len ≥ maximum := by omega
      have e := ih (item.expand ++ restItems) hneed1
        ((namedAll M H item.ownVars).withStack ((newTop ++ restTop) ++ base))
        (newTop ++ restTop) base (len + l) (hev1.1.trans hcells) rfl (hrepNew.append hrest)
        (hT.chain hev1.2.1) hg1 maximum fuel (by omega)
      simp only [namedAll_withStack, displayName_withStack, withStack_withStack] at e
      rw [hall] at e
      rw [getStringLength.loop]
      simp only [hsz, ne_eq, not_false_eq_true, if_true, hpop, hd, hnot, if_false, htok]
      rw [e (by omega), htext]
      simp only [Nat.add_assoc]

/-- The length measurement with a `maximum` above the full length: the result
is the length of the text of the term, its variables written by the display
names of the heap the measurement leaves. -/
theorem getStringLength_full (M : Nat) (H : Heap) (t : Term) (cell : Cell)
    (hrep : t.represents H.cells H.thisConstTable cell = true) (hg : Good M H)
    (maximum fuel : Nat) (hf : t.size < fuel)
    (hmax : (t.renderNamed H.thisConstTable (namedAll M H t.varList).displayName).length <
      maximum) :
    H.getStringLength M fuel cell maximum =
      some ((t.renderNamed H.thisConstTable (namedAll M H t.varList).displayName).length,
        namedAll M H t.varList) := by
  have hneed : itemsNeed [Item.term t] ≤ t.size := by simp [itemsNeed, Item.need]
  have hvl : itemsVarList [Item.term t] = t.varList := by simp [itemsVarList, Item.varList]
  have hpush : H.push cell = H.withStack (cell :: H.thisStack) := rfl
  have hr : ∀ names, renderItemsNamed H.thisConstTable names [Item.term t] =
      t.renderNamed H.thisConstTable names := by
    intro names
    simp [renderItemsNamed, Item.renderNamed]
  have e := getStringLength_loop_full M H.cells H.thisConstTable t.size [Item.term t] hneed
    (H.push cell) [cell] H.thisStack 0 rfl rfl (List.Forall₂.cons hrep List.Forall₂.nil)
    (ConstTable.Extends.same _) hg maximum fuel hf
  rw [hvl, hpush, namedAll_withStack, displayName_withStack, withStack_withStack, hr,
    namedAll_self_stack M _ H hg, Nat.zero_add] at e
  unfold getStringLength
  rw [hpush]
  exact e (by omega)

end Heap

namespace Heap

/-- The length measurement of a cell that holds a constant or a variable, with
a `maximum` that is not zero: the one cell is measured in full, whatever the
`maximum`. -/
theorem getStringLength_single (M : Nat) (T0 : ConstTable) (H : Heap) (t : Term) (cell : Cell)
    (hT : ConstTable.Extends T0 H.thisConstTable)
    (hrep : t.represents H.cells T0 cell = true) (hinv : t.vars = 0 ∨ Good M H)
    (hexp : (Item.term t).expand = []) :
    ∃ l, ∀ (maximum fuel : Nat), 1 < fuel → 0 < maximum →
      ∃ H2, H.getStringLength M fuel cell maximum = some (l, H2) := by
  obtain ⟨c1, l, newTop, H1, hderef, htok, hstack1, hrepNew, _, _⟩ :=
    getStringLength_token_spec M H.cells T0 (H.withStack H.thisStack) (Item.term t) cell rfl hT
      hrep hinv
  rw [hexp] at hrepNew
  cases hrepNew
  refine ⟨l, fun maximum fuel hf hpos => ⟨H1, ?_⟩⟩
  obtain ⟨fuel, rfl⟩ : ∃ k, fuel = k + 2 := ⟨fuel - 2, by omega⟩
  have hsz : H.getSize ≠ (H.push cell).getSize := by
    simp [getSize, push]
  have hpop : (H.push cell).pop = some (cell, H.withStack H.thisStack) :=
    pop_cons (H.push cell) cell H.thisStack rfl
  have hd : (H.withStack H.thisStack).deref cell = some c1 := hderef
  have hnot : ¬ 0 ≥ maximum := by omega
  have hsz1 : H.getSize = H1.getSize := by
    simp only [getSize, hstack1]
    rfl
  unfold getStringLength
  rw [getStringLength.loop]
  simp only [hsz, ne_eq, not_false_eq_true, if_true, hpop, hd, hnot, if_false, htok]
  rw [getStringLength.loop]
  simp [hsz1]

end Heap

/-! ## Rounds of the printing loop -/

namespace Heap

/-- The printing loop is its first `k` rounds followed by the loop on the
state they leave. -/
theorem print_loop_of_rounds (M bound current fuel : Nat) :
    ∀ (k : Nat) (H : Heap) (state : PrintState) (out : List Char),
      print.loop M bound current (k + (fuel + 1)) H state out =
        (print.rounds M bound current k H state out).bind
          (fun r => print.loop M bound current (fuel + 1) r.1 r.2.1 r.2.2) := by
  intro k
  induction k with
  | zero =>
    intro H state out
    rw [Nat.zero_add]
    rfl
  | succ k ih =>
    intro H state out
    have hk : k + 1 + (fuel + 1) = (k + (fuel + 1)) + 1 := by omega
    rw [hk, print.loop, print.rounds]
    by_cases hsz : current ≠ H.getSize
    · simp only [hsz, ne_eq, not_false_eq_true, if_true]
      cases hpop : H.pop with
      | none => rfl
      | some r =>
        obtain ⟨top, H1⟩ := r
        simp only []
        cases hd : H1.deref top with
        | none => rfl
        | some cell =>
          simp only []
          cases htok : print.token M bound H1 state out cell with
          | none => rfl
          | some r2 =>
            obtain ⟨H2, state2, out2⟩ := r2
            exact ih H2 state2 out2
    · simp only [hsz, if_false, Option.some_bind]
      rw [print.loop]
      simp only [hsz, if_false]

end Heap

/-! ## Interning, escaping and read-back (C1 to C4) -/

namespace ConstTable

/-- C3. `escapeName` implements the quoting rule: when the first character of
the name is one of `A`-`Z` or some character is reserved, the result is a
quote, the name with a backslash before every backslash and quote, and a
quote; otherwise it is the name unchanged. -/
theorem escapeName_quoting_rule (name : List Char) : escapeName name = quotingRule name :=
  escapeName_eq_quotingRule name

end ConstTable

/-! ## Ordinal names (C8 to C10) -/

namespace ConstTable

/-- C8. `getConstName` is injective: two ordinals for which it produces the
same string are equal. -/
theorem getConstName_distinct (m n : Nat) (h : getConstName m = getConstName n) : m = n :=
  getConstName_injective m n h

theorem getConstName_distinct_witness :
    getConstName (26 + 1) = getConstName 27 ∧ 26 + 1 = 27 :=
  ⟨rfl, getConstName_distinct (26 + 1) 27 rfl⟩

/-- C9. `getConstName` produces `A, B, ..., Z, AA, AB, ...`: ordinal 0 gives
`A`, every ordinal up to 25 gives the single letter with that index, 26
gives `AA`, 27 gives `AB`, and every ordinal `n` from 26 below 676 gives the
two letters with index `n / 26 - 1` and `n % 26`. -/
theorem getConstName_sequence :
    getConstName 0 = "A".toList ∧
    (∀ n, n ≤ 25 → getConstName n = [letter n]) ∧
    getConstName 26 = "AA".toList ∧
    getConstName 27 = "AB".toList ∧
    (∀ n, 26 ≤ n → n < 676 → getConstName n = [letter (n / 26 - 1), letter (n % 26)]) := by
  refine ⟨rfl, fun n hn => getConstName_small n (by omega), by decide, by decide, ?_⟩
  intro n h1 h2
  rw [getConstName_large n (n / 26) [n % 26] (msd_two n h1 h2) (by simp)
    (Nat.div_pos h1 (by norm_num))]
  rfl

/-- C10, the claim fails: `ZA` is a non-empty string of uppercase letters that
`getConstName` produces for no ordinal. -/
theorem getConstName_misses_ZA :
    "ZA".toList ≠ [] ∧ (∀ ch ∈ "ZA".toList, ch ∈ ALPHABET1) ∧
      ¬ ∃ n, getConstName n = "ZA".toList := by
  refine ⟨by decide, by decide, ?_⟩
  rintro ⟨n, hn⟩
  have h := getConstName_isOrdinalName n
  rw [hn] at h
  rcases h.2.2 with hl | hh
  · exact absurd hl (by decide)
  · exact hh rfl

/-- C10, amended. `getConstName` is a bijection between the `size_t` ordinals
`0 .. SIZE_MAX` and the names that stand for them: the non-empty strings over
`A`-`Z` that are one letter long or do not begin with `Z`, and whose ordinal
(`nameOrdinal`: the letters read as base-26 digits, the first one counted one
higher when there are two or more) is at most `SIZE_MAX`. No two ordinals get
the same string; the string of an ordinal stands for that ordinal; every such
string of at most 13 letters is the name of a `size_t` ordinal, and no name of
a `size_t` ordinal has more than 14 letters. -/
theorem getConstName_bijection :
    (∀ m n, getConstName m = getConstName n → m = n) ∧
      (∀ s, (∃ n, n ≤ SIZE_MAX ∧ getConstName n = s) ↔
        (IsOrdinalName s ∧ nameOrdinal s ≤ SIZE_MAX)) ∧
      (∀ n, n ≤ SIZE_MAX → nameOrdinal (getConstName n) = n) ∧
      (∀ s, IsOrdinalName s → s.length ≤ 13 → nameOrdinal s ≤ SIZE_MAX) ∧
      (∀ n, n ≤ SIZE_MAX → (getConstName n).length ≤ 14) := by
  have hmax : 26 ^ 13 ≤ SIZE_MAX := by
    unfold SIZE_MAX
    norm_num
  refine ⟨getConstName_injective, fun s => ⟨?_, ?_⟩, fun n _ => nameOrdinal_getConstName n,
    fun s hs hlen => ?_, fun n hn => ?_⟩
  · rintro ⟨n, hn, rfl⟩
    exact ⟨getConstName_isOrdinalName n, by rw [nameOrdinal_getConstName]; exact hn⟩
  · rintro ⟨hs, hn⟩
    exact ⟨nameOrdinal s, hn, getConstName_nameOrdinal s hs⟩
  · have := nameOrdinal_lt s hs hlen
    omega
  · apply getConstName_length_le
    unfold SIZE_MAX at hn
    omega

end ConstTable

/-! ## Printing and measuring (C5 to C7) -/

namespace Heap

/-- C6, the claim fails: measuring the constant `foo`, three characters long,
with `maximum = 2` returns 3, which is greater than `maximum`. -/
theorem getStringLength_exceeds_maximum :
    ∃ H2, Example.heap.getStringLength 256 10 (.CON 5) 2 = some (3, H2) ∧ ¬ 3 ≤ 2 :=
  ⟨Example.heap, by decide, by decide⟩

/-- C6, amended. For every term built from constant cells, structure cells
and unbound variables and held by `cell`, let `L` be the length of the text of
the term, a variable written by the display name the measurement gives it
(for a term without variables, the length of `render t`). Then for every
`maximum` the call `getStringLength(cell, maximum)` returns `maximum` or `L`;
it returns `L` when `L` is below `maximum`, and a value of at least `maximum`
when `L` is at least `maximum`; for a structure the result is never greater
than `maximum`; for a constant or a variable and a `maximum` that is not zero
the result is `L`, also when `L` is greater than `maximum`. -/
theorem getStringLength_capped (MAX_CONST_LENGTH : Nat) (H : Heap) (t : Term) (cell : Cell)
    (hrep : t.represents H.cells H.thisConstTable cell = true)
    (hgood : t.vars = 0 ∨ Good MAX_CONST_LENGTH H) :
    ∃ L, L = (t.renderNamed H.thisConstTable
          (namedAll MAX_CONST_LENGTH H t.varList).displayName).length ∧
      (t.vars = 0 → L = (t.render H.thisConstTable).length) ∧
      ∀ (maximum fuel : Nat), t.size < fuel →
        ∃ r H2, H.getStringLength MAX_CONST_LENGTH fuel cell maximum = some (r, H2) ∧
          (r = maximum ∨ r = L) ∧ (L < maximum → r = L) ∧ (maximum ≤ L → maximum ≤ r) ∧
          ((∃ functor args, t = .str functor args) → r ≤ maximum) ∧
          ((∀ functor args, t ≠ .str functor args) → 0 < maximum → r = L) := by
  obtain ⟨L, hL, hres⟩ := getStringLength_spec MAX_CONST_LENGTH H.thisConstTable H t cell
    (ConstTable.Extends.same _) hrep hgood
  have hone : 1 ≤ t.size := by cases t <;> simp [Term.size]
  have hnamed : L = (t.renderNamed H.thisConstTable
      (namedAll MAX_CONST_LENGTH H t.varList).displayName).length := by
    rcases hgood with h0 | hg
    · rw [hL h0, Term.renderNamed_ground _ _ t h0]
    · obtain ⟨r, H2, e, _, _, _, _, h2, _, _⟩ := hres
        (max L (t.renderNamed H.thisConstTable
          (namedAll MAX_CONST_LENGTH H t.varList).displayName).length + 1) (t.size + 1)
        (by omega)
      have e2 := getStringLength_full MAX_CONST_LENGTH H t cell hrep hg
        (max L (t.renderNamed H.thisConstTable
          (namedAll MAX_CONST_LENGTH H t.varList).displayName).length + 1) (t.size + 1)
        (by omega) (by omega)
      rw [e] at e2
      simp only [Option.some.injEq, Prod.mk.injEq] at e2
      rw [← e2.1]
      exact (h2 (by omega)).symm
  refine ⟨L, hnamed, hL, fun maximum fuel hf => ?_⟩
  obtain ⟨r, H2, e, _, _, _, h1, h2, h3, h4⟩ := hres maximum fuel hf
  refine ⟨r, H2, e, h1, h2, h3, ?_, fun hns hpos => ?_⟩
  · rintro ⟨functor, args, rfl⟩
    exact h4 rfl
  · have hexp : (Item.term t).expand = [] := by
      cases t with
      | con cref => rfl
      | var v => rfl
      | str functor args => exact absurd rfl (hns functor args)
    obtain ⟨l, hsingle⟩ := getStringLength_single MAX_CONST_LENGTH H.thisConstTable H t cell
      (ConstTable.Extends.same _) hrep hgood hexp
    obtain ⟨H3, e3⟩ := hsingle maximum fuel (by omega) hpos
    obtain ⟨r4, H4, e4, _, _, _, _, h42, _, _⟩ := hres (L + 1) fuel hf
    obtain ⟨H5, e5⟩ := hsingle (L + 1) fuel (by omega) (by omega)
    rw [e4] at e5
    rw [e] at e3
    simp only [Option.some.injEq, Prod.mk.injEq] at e3 e5
    have := h42 (by omega)
    omega

theorem getStringLength_capped_witness :
    ∃ L, L = (Example.termVars.renderNamed Example.heap.thisConstTable
          (namedAll 256 Example.heap Example.termVars.varList).displayName).length ∧
      (Example.termVars.vars = 0 →
        L = (Example.termVars.render Example.heap.thisConstTable).length) ∧
      ∀ (maximum fuel : Nat), Example.termVars.size < fuel →
        ∃ r H2, Example.heap.getStringLength 256 fuel (.STR 7) maximum = some (r, H2) ∧
          (r = maximum ∨ r = L) ∧ (L < maximum → r = L) ∧ (maximum ≤ L → maximum ≤ r) ∧
          ((∃ functor args, Example.termVars = .str functor args) → r ≤ maximum) ∧
          ((∀ functor args, Example.termVars ≠ .str functor args) → 0 < maximum → r = L) :=
  getStringLength_capped 256 Example.heap Example.termVars (.STR 7) (by decide)
    (Or.inr ⟨by decide, by unfold ConstTable.Consistent; decide, by decide⟩)

end Heap

/-! ## Name lengths, scheduled cells, buffer use and the wrap test (C11, C16, C19, C20) -/

namespace ConstTable

/-- C11. The length of the output of `getConstName` is non-decreasing in the
ordinal: for `m ≤ n` the string for `m` is no longer than the string for
`n`. -/
theorem getConstName_length_monotone (m n : Nat) (h : m ≤ n) :
    (getConstName m).length ≤ (getConstName n).length :=
  getConstName_length_mono m n h

theorem getConstName_length_monotone_witness :
    (25 : Nat) ≤ 26 ∧ (getConstName 25).length ≤ (getConstName 26).length :=
  ⟨by decide, getConstName_length_monotone 25 26 (by decide)⟩

/-- C19, the claim fails for every `MAX_CONST_LENGTH` of at least 2: the name
of `MAX_CONST_LENGTH - 1` letters `A` passes the assertion
`strlen(name) < MAX_CONST_LENGTH`, and `escapeName` writes
`MAX_CONST_LENGTH + 2` characters for it (two quotes, the letters and the
NUL), more than the `MAX_CONST_LENGTH` of `escapedName`. -/
theorem escapeName_overflows (MAX_CONST_LENGTH : Nat) (h : 2 ≤ MAX_CONST_LENGTH) :
    (List.replicate (MAX_CONST_LENGTH - 1) 'A').length < MAX_CONST_LENGTH ∧
      escapeName.written (List.replicate (MAX_CONST_LENGTH - 1) 'A') = MAX_CONST_LENGTH + 2 := by
  obtain ⟨n, rfl⟩ : ∃ n, MAX_CONST_LENGTH = n + 2 := ⟨MAX_CONST_LENGTH - 2, by omega⟩
  refine ⟨by simp, ?_⟩
  have e : n + 2 - 1 = n + 1 := by omega
  rw [e, escapeName.written, escapeName_letters]
  simp

theorem escapeName_overflows_witness :
    (List.replicate (4 - 1) 'A').length < 4 ∧
      escapeName.written (List.replicate (4 - 1) 'A') = 4 + 2 :=
  escapeName_overflows 4 (by decide)

end ConstTable

namespace Heap

/-- C16, the claim fails: with argument `i` taken to be the cell at
`header + n - i`, argument 0 of the structure `f(a, b, c)` at header 1 is the
cell at offset 4, but the cell `pushArgs` leaves on top of the workspace, the
first to be popped, is the cell at offset 2. -/
theorem pushArgs_pops_header_succ_first :
    Example.heap.getCell ⟨1 + 3 - 0⟩ = some (.CON 4) ∧
      (Example.heap.pushArgs ⟨1⟩).map (fun r => r.2.thisStack.head?) = some (some (.CON 2)) := by
  decide

/-- C16, amended. For a functor of arity `n > 0` at `header` followed by its
`n` argument cells, `pushArgs(header)` grows the workspace by exactly `2n`
cells, and popping them yields the cell at `header + 1`, `Comma`, the cell at
`header + 2`, `Comma`, ..., the cell at `header + n`, `End`, in that order,
above the cells that were there; for a functor of arity 0 it pushes
nothing. -/
theorem pushArgs_order (H : Heap) (header n functor : Nat)
    (hcell : H.getCell ⟨header⟩ = some (.CON functor))
    (harity : H.thisConstTable.getConstArity ⟨functor⟩ = some n)
    (hargs : ∀ j, j < n → (H.getCell ⟨header + 1 + j⟩).isSome = true) :
    ∃ H1, H.pushArgs ⟨header⟩ = some (⟨functor⟩, H1) ∧
      (n = 0 → H1 = H) ∧
      H1.thisStack.length = H.thisStack.length + 2 * n ∧
      H1.thisStack.drop (2 * n) = H.thisStack ∧
      ∀ j, j < n →
        H1.thisStack[2 * j]? = H.getCell ⟨header + 1 + j⟩ ∧
        H1.thisStack[2 * j + 1]? =
          some (if j + 1 < n then Cell.EXT .EXT_COMMA 0 else Cell.EXT .EXT_END 0) := by
  rcases Nat.eq_zero_or_pos n with rfl | hn
  · refine ⟨H, ?_, fun _ => rfl, rfl, rfl, fun j hj => absurd hj (by omega)⟩
    unfold pushArgs
    simp only [hcell, Cell.toConstRef, Cell.getValue, harity, lt_self_iff_false, if_false]
  · have hcellAt : ∀ j, H.getCell ⟨header + 1 + j⟩ = H.cells[header + j]? := by
      intro j
      have e : header + 1 + j = (header + j) + 1 := by omega
      show getCellAt H.cells ⟨header + 1 + j⟩ = _
      rw [e, getCellAt_succ]
    have hlenCells : header + n ≤ H.cells.length := by
      have h1 := hargs (n - 1) (by omega)
      rw [hcellAt, Option.isSome_iff_exists] at h1
      obtain ⟨a, ha⟩ := h1
      have := (List.getElem?_eq_some.mp ha).1
      omega
    have hlen : ((H.cells.drop header).take n).length = n := by
      simp only [List.length_take, List.length_drop]
      omega
    have hne : (H.cells.drop header).take n ≠ [] := by
      intro e
      rw [e] at hlen
      simp at hlen
      omega
    refine ⟨_, pushArgs_spec H header n functor hcell harity hn hlen, fun h0 => by omega, ?_, ?_,
      fun j hj => ?_⟩
    · simp only [withStack, List.length_append, argStack_length _ hne, hlen]
      omega
    · simp only [withStack]
      rw [List.drop_left' (by rw [argStack_length _ hne, hlen])]
    · have hlt : 2 * j + 1 < (argStack ((H.cells.drop header).take n)).length := by
        rw [argStack_length _ hne, hlen]
        omega
      simp only [withStack]
      rw [List.getElem?_append_left (by omega), List.getElem?_append_left hlt,
        argStack_even _ j (by omega), argStack_odd _ j (by omega), hlen, hcellAt]
      refine ⟨?_, rfl⟩
      rw [List.getElem?_take, if_pos hj, List.getElem?_drop]

theorem pushArgs_order_witness :
    ∃ H1, Example.heap.pushArgs ⟨1⟩ = some (⟨1⟩, H1) ∧
      (3 = 0 → H1 = Example.heap) ∧
      H1.thisStack.length = Example.heap.thisStack.length + 2 * 3 ∧
      H1.thisStack.drop (2 * 3) = Example.heap.thisStack ∧
      ∀ j, j < 3 →
        H1.thisStack[2 * j]? = Example.heap.getCell ⟨1 + 1 + j⟩ ∧
        H1.thisStack[2 * j + 1]? =
          some (if j + 1 < 3 then Cell.EXT .EXT_COMMA 0 else Cell.EXT .EXT_END 0) :=
  pushArgs_order Example.heap 1 3 1 (by decide) (by decide) (by decide)

/-- C20. The capped measurement decides wrapping like a full measurement. For
every well-formed term held by `cell` there is a length `L`, the result of
`getStringLength` for every `maximum` above it (the length of the rendering
when the term has no variables), such that for every `maximum` the result of
`getStringLength(cell, maximum)` is at least `maximum` exactly when `L` is,
and for every print state `willWrap(getStringLength(cell,
willWrapOnLength()))` holds exactly when `column + L >= endColumn`. -/
theorem willWrap_capped (MAX_CONST_LENGTH : Nat) (H : Heap) (t : Term) (cell : Cell)
    (hrep : t.represents H.cells H.thisConstTable cell = true)
    (hgood : t.vars = 0 ∨ Good MAX_CONST_LENGTH H) :
    ∃ L, (t.vars = 0 → L = (t.render H.thisConstTable).length) ∧
      (∀ (maximum fuel : Nat), L < maximum → t.size < fuel →
        ∃ H2, H.getStringLength MAX_CONST_LENGTH fuel cell maximum = some (L, H2)) ∧
      (∀ (maximum fuel : Nat), t.size < fuel →
        ∃ r H2, H.getStringLength MAX_CONST_LENGTH fuel cell maximum = some (r, H2) ∧
          (maximum ≤ r ↔ maximum ≤ L)) ∧
      (∀ (state : PrintState) (fuel : Nat), t.size < fuel →
        ∃ r H2, H.getStringLength MAX_CONST_LENGTH fuel cell state.willWrapOnLength =
            some (r, H2) ∧
          (state.willWrap r = true ↔ state.thisColumn + L ≥ state.thisParam.endColumn)) := by
  obtain ⟨L, hL, hres⟩ := getStringLength_spec MAX_CONST_LENGTH H.thisConstTable H t cell
    (ConstTable.Extends.same _) hrep hgood
  refine ⟨L, hL, fun maximum fuel hm hf => ?_, fun maximum fuel hf => ?_, fun state fuel hf => ?_⟩
  · obtain ⟨r, H2, e, _, _, _, _, h2, _, _⟩ := hres maximum fuel hf
    rw [h2 hm] at e
    exact ⟨H2, e⟩
  · obtain ⟨r, H2, e, _, _, _, _, h2, h3, _⟩ := hres maximum fuel hf
    refine ⟨r, H2, e, fun h => ?_, h3⟩
    by_contra hc
    have := h2 (by omega)
    omega
  · obtain ⟨r, H2, e, _, _, _, _, h2, h3, _⟩ := hres state.willWrapOnLength fuel hf
    refine ⟨r, H2, e, ?_⟩
    simp only [PrintState.willWrap, decide_eq_true_eq, ge_iff_le]
    by_cases hc : state.thisColumn < state.thisParam.endColumn
    · have hw : state.willWrapOnLength = state.thisParam.endColumn - state.thisColumn := by
        simp [PrintState.willWrapOnLength, hc]
      rw [hw] at h2 h3
      constructor
      · intro h
        by_contra hn
        have := h2 (by omega)
        omega
      · intro h
        have := h3 (by omega)
        omega
    · constructor <;> intro _ <;> omega

theorem willWrap_capped_witness :
    ∃ L, (Example.term.vars = 0 → L = (Example.term.render Example.heap.thisConstTable).length) ∧
      (∀ (maximum fuel : Nat), L < maximum → Example.term.size < fuel →
        ∃ H2, Example.heap.getStringLength 256 fuel (.STR 1) maximum = some (L, H2)) ∧
      (∀ (maximum fuel : Nat), Example.term.size < fuel →
        ∃ r H2, Example.heap.getStringLength 256 fuel (.STR 1) maximum = some (r, H2) ∧
          (maximum ≤ r ↔ maximum ≤ L)) ∧
      (∀ (state : PrintState) (fuel : Nat), Example.term.size < fuel →
        ∃ r H2, Example.heap.getStringLength 256 fuel (.STR 1) state.willWrapOnLength =
            some (r, H2) ∧
          (state.willWrap r = true ↔ state.thisColumn + L ≥ state.thisParam.endColumn)) :=
  willWrap_capped 256 Example.heap Example.term (.STR 1) (by decide) (Or.inl (by decide))

end Heap

/-! ## The parser (C14, C15) -/

namespace Heap

/-- C14. The round trip of atoms fails. The terminator that ends a bare atom
is stored in the token: parsing `foo.` interns the name `foo.`, and the new
constant cell prints as the quoted `foo.`, not as `foo`. In a quoted atom the
opening quote is stored and every character that is not a backslash is stored
twice: parsing the quoted `Foo Bar` followed by `.`, white space kept,
interns a name that prints as the quoted text of `FFoooo  BBaarr` between
escaped quotes. -/
theorem parse_atom_round_trip_fails :
    (Example.heap.parse 256 8 ⟨['f', 'o', 'o', '.'], true⟩ ⟨0, 0⟩).bind
        (fun r => r.2.1.printedConstant r.1) =
      some [QUOTE, 'f', 'o', 'o', '.', QUOTE] ∧
    (Example.heap.parse 256 16
        ⟨[QUOTE, 'F', 'o', 'o', ' ', 'B', 'a', 'r', QUOTE, '.'], false⟩ ⟨0, 0⟩).bind
        (fun r => r.2.1.printedConstant r.1) =
      some [QUOTE, BACKSLASH, QUOTE, 'F', 'F', 'o', 'o', 'o', 'o', ' ', ' ', 'B', 'B', 'a', 'a',
        'r', 'r', BACKSLASH, QUOTE, BACKSLASH, QUOTE, QUOTE] := by
  refine ⟨by decide, by decide⟩

/-- C15. Parse failure is reported by value. For every input whose first
character after white space is one of `[ ] ( ) , . \`, with either setting of
`skipws`, `parse` returns the offset of a newly allocated constant cell whose
reference is the one `getConstNoEscape("$parseError", 0)` returns, and leaves
the characters after the reserved one in the stream. -/
theorem parse_reserved (MAX_CONST_LENGTH fuel : Nat) (H : Heap) (ws rest : List Char) (c : Char)
    (skipws : Bool) (loc : LocationTracker) (hws : ∀ w ∈ ws, isspace w = true)
    (hc : c ∈ ['[', ']', '(', ')', ',', '.', BACKSLASH])
    (hM : 11 < MAX_CONST_LENGTH) (hfuel : ws.length < fuel) :
    ∃ cref table loc2,
      H.thisConstTable.getConstNoEscape MAX_CONST_LENGTH "$parseError".toList 0 =
        some (cref, table) ∧
      H.parse MAX_CONST_LENGTH fuel ⟨ws ++ c :: rest, skipws⟩ loc =
        some (⟨H.cells.length + 1⟩,
          { H with cells := H.cells ++ [.CON cref.index], thisConstTable := table },
          ⟨rest, skipws⟩, loc2) := by
  obtain ⟨hsp, hres, hq⟩ := reserved_not_space c hc
  obtain ⟨loc2, e⟩ := parseSkipWhite_loop_spec skipws c rest hsp ws fuel loc NUL hws hfuel
  obtain ⟨cref, table, eg, _⟩ := ConstTable.getConstNoEscape_spec MAX_CONST_LENGTH
    H.thisConstTable "$parseError".toList 0 (by simpa using hM)
  refine ⟨cref, table, loc2, eg, ?_⟩
  simp only [parse, parseSkipWhite, e, parseConst, hq, hres, Bool.not_false, Bool.and_self,
    if_true, parseError, eg, Option.map_some', newCon]

theorem parse_reserved_witness :
    ∃ cref table loc2,
      Example.heap.thisConstTable.getConstNoEscape 256 "$parseError".toList 0 =
        some (cref, table) ∧
      Example.heap.parse 256 4 ⟨[' ', '\n'] ++ '(' :: ['f', 'o', 'o'], false⟩ ⟨0, 0⟩ =
        some (⟨Example.heap.cells.length + 1⟩,
          { Example.heap with
            cells := Example.heap.cells ++ [.CON cref.index], thisConstTable := table },
          ⟨['f', 'o', 'o'], false⟩, loc2) :=
  parse_reserved 256 4 Example.heap [' ', '\n'] ['f', 'o', 'o'] '(' false ⟨0, 0⟩
    (by decide) (by decide) (by decide) (by decide)

end Heap

/-! ## Display names within one pass (C12) -/

namespace Heap

end Heap

/-! ## Columns of the layout (C13, C17, C18) -/

set_option maxRecDepth 100000

namespace Heap

/-- C13. The print width bound fails on the right-nested structure
`append(e, append(e, append(e, e)))`, `e = element_0123456789`, printed from
start column 0 with end column 40 and indent width 2. The heap holds the term;
`print` emits the text `Wide.before`, then `)`, then `Wide.after`; after ten
rounds of the loop the output is `Wide.before`, the cell on top of the
workspace is the closing parenthesis, no new line is pending and the tracked
column is 39; the eleventh round appends `)` with no newline before it; and
the actual column at which that `)` starts is 41, beyond the end column. -/
theorem print_token_beyond_end_column :
    Wide.term.represents Wide.heap.cells Wide.table (.STR 7) = true ∧
    Wide.heap.getCell ⟨10⟩ = some (.STR 7) ∧
    (Wide.heap.print 256 64 [] ⟨10⟩ Wide.param).map Prod.snd =
      some (Wide.before ++ [')'] ++ Wide.after) ∧
    (print.rounds 256 64 0 10 (Wide.heap.push (.STR 7)) (PrintState.init Wide.param) []).map
        (fun r => (r.1.thisStack.head?, r.2.1.thisNeedNewLine, r.2.1.thisColumn, r.2.2)) =
      some (some (.EXT .EXT_END 0), false, 39, Wide.before) ∧
    (print.rounds 256 64 0 11 (Wide.heap.push (.STR 7)) (PrintState.init Wide.param) []).map
        (fun r => r.2.2) = some (Wide.before ++ [')']) ∧
    actualColumn Wide.param.startColumn Wide.before = 41 ∧
    Wide.param.endColumn < actualColumn Wide.param.startColumn Wide.before := by
  refine ⟨by decide, by decide, by decide, by decide, by decide, by decide, by decide⟩

/-- C17. The alignment column recorded by `markColumn` is not the actual
column on `f(a, b, c, d, g(x))` printed from start column 0 with end column 10
and indent width 2. The heap holds the term; after nine rounds of the loop the
cell on top of the workspace is the structure `g(x)`, at depth 1; the tenth
round prints `g(`, leaving the output `Flat.opened`, records column 7 for
depth 1 and tracks column 7, while the actual column right after the opening
parenthesis is 9. -/
theorem markColumn_behind_actual_column :
    Flat.term.represents Flat.heap.cells Flat.table (.STR 3) = true ∧
    Flat.heap.getCell ⟨9⟩ = some (.STR 3) ∧
    (print.rounds 256 64 0 9 (Flat.heap.push (.STR 3)) (PrintState.init Flat.param) []).map
        (fun r => (r.1.thisStack.head?, r.2.1.thisIndent)) = some (some (.STR 1), 1) ∧
    (print.rounds 256 64 0 10 (Flat.heap.push (.STR 3)) (PrintState.init Flat.param) []).map
        (fun r => (r.2.1.thisIndent, r.2.1.thisIndentTable 1, r.2.1.thisColumn, r.2.2)) =
      some (2, 7, 7, Flat.opened) ∧
    actualColumn Flat.param.startColumn Flat.opened = 9 := by
  refine ⟨by decide, by decide, by decide, by decide, by decide⟩

/-- C18. The maximum indent depth is not enforced on the term
`g(g(...g(a)...))` nested 101 deep, printed from start column 0 with end
column 40 and indent width 2. The heap holds the term; after 100 rounds of
the loop the indent depth is `MAX_INDENT_DEPTH`, the entry of the indent table
at that index is still 0 and the cell on top of the workspace is a structure;
the next round calls `markColumn` at that depth and writes column 40 at index
`MAX_INDENT_DEPTH`, one past the table, and the depth goes on to 101. -/
theorem markColumn_past_indent_table :
    PrintState.MAX_INDENT_DEPTH = 100 ∧
    (Deep.term 101).represents (Deep.heap 101).cells Deep.table (.STR 1) = true ∧
    (Deep.heap 101).getCell ⟨203⟩ = some (.STR 1) ∧
    (print.rounds 256 1000 0 100 ((Deep.heap 101).push (.STR 1)) (PrintState.init Deep.param)
        []).map (fun r => (r.1.thisStack.head?, r.2.1.thisIndent,
          r.2.1.thisIndentTable PrintState.MAX_INDENT_DEPTH)) =
      some (some (.STR 201), PrintState.MAX_INDENT_DEPTH, 0) ∧
    (print.rounds 256 1000 0 101 ((Deep.heap 101).push (.STR 1)) (PrintState.init Deep.param)
        []).map (fun r => (r.2.1.thisIndent,
          r.2.1.thisIndentTable PrintState.MAX_INDENT_DEPTH)) = some (101, 40) := by
  refine ⟨by decide, by decide, by decide, by decide, by decide⟩

end Heap

end PROJECT
